import Mathlib

/-!
Verification of the qa-video incremental build pipeline.

This file gives a shallow embedding of the content-addressed caching and
scheduling core of the repository: the cache path construction (cache.ts),
the markdown segmentation (markdown.ts), the TTS text splitting and audio
plan construction (tts-preprocess.ts), the pipeline orchestration
(pipeline.ts, the current revision with multi-part audio plans and
slug-based prefixes), the bounded concurrency runner, the TTS worker pool
(tts-pool.ts), and the stale cache cleanup.

External collaborators are modelled as opaque function parameters, exactly
as the spec treats them:
  - sha : the truncated cryptographic digest (cache.ts delegates to the
    crypto library); its determinism is function-ness, and where a claim
    needs collision-freeness at specific points that is an explicit
    hypothesis;
  - slug : the filename slug of a question (cache.ts helper);
  - preprocessForTTS : the acronym/pronunciation normalizer (a pure
    text-to-text function in tts-preprocess.ts built from a regex table);
  - getAudioDuration : the external audio duration probe, a function of the
    audio file path;
  - file existence and unlink outcomes : oracles for the filesystem.

All sequencing-relevant string operations (split on newline, trim, join)
are re-implemented over character lists so that every definition is
executable by the kernel.
-/

set_option maxRecDepth 8000

namespace QaVideo

/-! ### Character-level string helpers (JS string primitives) -/

/-- JS `text.split('\n')` on the character list level: splitting an empty
string yields one empty piece, and a trailing newline yields a trailing
empty piece. -/
def splitNlChars : List Char → List (List Char)
  | [] => [[]]
  | c :: rest =>
    if c = '\n' then [] :: splitNlChars rest
    else
      match splitNlChars rest with
      | [] => [[c]]
      | l :: ls => (c :: l) :: ls

/-- JS `text.split('\n')` producing strings. -/
def splitNl (s : String) : List String :=
  (splitNlChars s.data).map List.asString

/-- JS `String.prototype.trim`: strip whitespace from both ends. -/
def jsTrim (s : String) : String :=
  (((s.data.dropWhile Char.isWhitespace).reverse.dropWhile Char.isWhitespace).reverse).asString

/-- JS `Array.prototype.join(sep)`. -/
def joinSep (sep : String) : List String → String
  | [] => ""
  | [x] => x
  | x :: xs => x ++ sep ++ joinSep sep xs

/-! ### cache.ts -/

/-- cache.ts `cachedPath`: build a cache-keyed filename
`tempDir/<pre>_<sha(hashContent)>.<ext>`.  `path.join` is modelled as
interposing a single slash. -/
def cachedPath (sha : String → String) (tempDir pre hashContent ext : String) : String :=
  tempDir ++ "/" ++ (pre ++ "_" ++ sha hashContent ++ "." ++ ext)

/-- cache.ts `isCached`: true iff the file exists and `force` is false.
`existsOnDisk` is the filesystem oracle standing for `existsSync`. -/
def isCached (existsOnDisk : String → Bool) (filePath : String) (force : Bool) : Bool :=
  !force && existsOnDisk filePath

/-! ### markdown.ts -/

/-- One segment produced by the markdown splitter: plain prose or a fenced
code block with its language tag. -/
inductive MdSegment
  | text (content : String)
  | code (lang : String) (content : String)
  deriving DecidableEq, Repr

def MdSegment.isCodeKind : MdSegment → Bool
  | .text _ => false
  | .code _ _ => true

/-- The fence-open test `/^```(\w*)$/`: the whole line is three backticks
followed by word characters only; returns the language tag. -/
def fenceOpen? (line : List Char) : Option String :=
  if line.take 3 = ['`', '`', '`'] ∧
      (line.drop 3).all (fun c => c.isAlphanum || c = '_') then
    some (line.drop 3).asString
  else none

/-- Push the joined prose lines as a text segment if nonempty after trim
(the JS `if (prose) segments.push(...)`). -/
def flushProse (textLines : List String) : List MdSegment :=
  let prose := jsTrim (joinSep "\n" textLines.reverse)
  if prose = "" then [] else [.text prose]

/-- The line-by-line fence state machine of markdown.ts `parseMarkdown`.
`textLines` and `codeLines` are kept reversed (JS pushes to the end).
When the input ends inside an unclosed fence, the fence line and the code
lines are folded back into the trailing prose. -/
def parseMdLines : List (List Char) → Bool → String → List String → List String →
    List MdSegment
  | [], inCode, lang, codeLines, textLines =>
    if inCode then
      flushProse (codeLines ++ [("```" ++ lang)] ++ textLines)
    else
      flushProse textLines
  | line :: rest, inCode, lang, codeLines, textLines =>
    if inCode then
      if line = ['`', '`', '`'] then
        .code lang (joinSep "\n" codeLines.reverse) ::
          parseMdLines rest false "" [] textLines
      else
        parseMdLines rest true lang (line.asString :: codeLines) textLines
    else
      match fenceOpen? line with
      | some lang2 =>
        flushProse textLines ++ parseMdLines rest true lang2 [] []
      | none =>
        parseMdLines rest false lang codeLines (line.asString :: textLines)

/-- markdown.ts `parseMarkdown`: split text into alternating prose and
fenced code segments; guaranteed nonempty (falls back to one text segment
holding the whole input). -/
def parseMarkdown (text : String) : List MdSegment :=
  let segs := parseMdLines (splitNlChars text.data) false "" [] []
  if segs.isEmpty then [.text text] else segs

/-- markdown.ts `codeToTTS`: spoken form of a code segment. -/
def codeToTTS : MdSegment → String
  | .text c => "Code: " ++ c
  | .code _ c => "Code: " ++ c

/-! ### tts.ts -/

/-- tts.ts `MAX_CHUNK_CHARS`. -/
def MAX_CHUNK_CHARS : Nat := 200

/-! ### tts-preprocess.ts: audio plan types and cache keys -/

/-- A single TTS synthesis unit (one voice, one WAV output). -/
structure AudioPartPlan where
  audioPath : String
  ttsText : String
  voice : String
  deriving DecidableEq, Repr

/-- Audio plan for one question or answer slot (tts-preprocess.ts shape). -/
structure AudioPlan where
  finalAudioPath : String
  parts : List AudioPartPlan
  isMultiPart : Bool
  deriving DecidableEq, Repr

/-- A voice-tagged TTS fragment. -/
structure TTSPart where
  text : String
  isCode : Bool
  deriving DecidableEq, Repr

/-- The audio cache key: long texts that require chunking get the
`audio-chunked:` namespace, short texts keep the original `audio:`
namespace. -/
def audioCacheKey (ttsText voice : String) : String :=
  if ttsText.length > MAX_CHUNK_CHARS then
    "audio-chunked:" ++ ttsText ++ ":" ++ voice
  else
    "audio:" ++ ttsText ++ ":" ++ voice

/-! ### tts-preprocess.ts: splitting text into TTS parts -/

/-- Emit the pending prose characters as a chunk, if any. -/
def flushChunk (acc : List Char) : List (String × Bool) :=
  if acc.isEmpty then [] else [(acc.asString, false)]

/-- Scanner equivalent of iterating ``/`([^`]+)`/g`` matches: alternating
prose and inline-code chunks.  `acc` holds the pending prose characters;
`span` is `some content` while inside a potential backtick span.  A
backtick pair with nonempty content becomes a code chunk; an unmatched
backtick or an empty `` `` `` pair stays in the prose (as the regex engine
skips over them). -/
def splitInlineAux : List Char → List Char → Option (List Char) → List (String × Bool)
  | [], acc, none => flushChunk acc
  | [], acc, some content => flushChunk (acc ++ '`' :: content)
  | c :: rest, acc, none =>
    if c = '`' then splitInlineAux rest acc (some [])
    else splitInlineAux rest (acc ++ [c]) none
  | c :: rest, acc, some content =>
    if c = '`' then
      if content.isEmpty then
        splitInlineAux rest (acc ++ ['`']) (some [])
      else
        flushChunk acc ++ (content.asString, true) :: splitInlineAux rest [] none
    else
      splitInlineAux rest acc (some (content ++ [c]))

/-- tts-preprocess.ts `splitByInlineCode`: split a fragment by inline
backtick code spans; falls back to one prose chunk when nothing matched. -/
def splitByInlineCode (text : String) : List (String × Bool) :=
  let result := splitInlineAux text.data [] none
  if result.isEmpty then [(text, false)] else result

/-- The candidate TTS parts of one markdown segment: the spoken form of a
code block, or the inline-code split of a prose segment; candidates whose
preprocessed text trims to nothing are dropped. -/
def ttsPartsOfSeg (preprocessForTTS : String → String) : MdSegment → List TTSPart
  | .code l c =>
    let ttsText := preprocessForTTS (codeToTTS (.code l c))
    if jsTrim ttsText ≠ "" then [⟨ttsText, true⟩] else []
  | .text content =>
    (splitByInlineCode content).flatMap fun ip =>
      let ttsText := preprocessForTTS ip.1
      if jsTrim ttsText ≠ "" then [⟨ttsText, ip.2⟩] else []

/-- The `parts` accumulator of tts-preprocess.ts `splitIntoTTSParts`. -/
def ttsPartsOf (preprocessForTTS : String → String) (text : String) : List TTSPart :=
  (parseMarkdown text).flatMap (ttsPartsOfSeg preprocessForTTS)

/-- tts-preprocess.ts `splitIntoTTSParts`: voice-tagged TTS parts from raw
text; code segments and inline code spans get `isCode := true`, every
candidate is preprocessed, empty ones are dropped, and if everything was
stripped the whole text comes back as a single prose part. -/
def splitIntoTTSParts (preprocessForTTS : String → String) (text : String) : List TTSPart :=
  let parts := ttsPartsOf preprocessForTTS text
  if parts.isEmpty then [⟨preprocessForTTS text, false⟩] else parts

/-- tts-preprocess.ts `buildAudioPlan`: one plan per card slot.  Single
voice texts produce a single-part plan; mixed prose/code texts produce a
multi-part plan whose final WAV is keyed by the ordered hashes of all
parts. -/
def buildAudioPlan (sha preprocessForTTS : String → String)
    (text tempDir pre voice codeVoice : String) : AudioPlan :=
  let ttsParts := splitIntoTTSParts preprocessForTTS text
  let hasCode := ttsParts.any (·.isCode)
  if !hasCode then
    let ttsText := joinSep " " (ttsParts.map (·.text))
    let audioPath := cachedPath sha tempDir pre (audioCacheKey ttsText voice) "wav"
    { finalAudioPath := audioPath
      parts := [⟨audioPath, ttsText, voice⟩]
      isMultiPart := false }
  else
    let parts : List AudioPartPlan := (ttsParts.enum).map fun pj =>
      let p := pj.2
      let v := if p.isCode then codeVoice else voice
      let partPre := pre ++ "_" ++ (if p.isCode then "c" else "t") ++ Nat.repr pj.1
      ⟨cachedPath sha tempDir partPre (audioCacheKey p.text v) "wav", p.text, v⟩
    let partKey := joinSep "|" (parts.map fun p => sha (p.ttsText ++ ":" ++ p.voice))
    let finalAudioPath := cachedPath sha tempDir pre ("md-audio:" ++ partKey) "wav"
    { finalAudioPath := finalAudioPath, parts := parts, isMultiPart := true }

/-! ### types.ts -/

/-- One parsed flashcard. -/
structure Card where
  question : String
  answer : String
  deriving DecidableEq, Repr

/-- The side of a card a segment narrates. -/
inductive SegType
  | question
  | answer
  deriving DecidableEq, Repr

/-- String interpolation of `seg.type`. -/
def SegType.str : SegType → String
  | .question => "question"
  | .answer => "answer"

/-- The one-letter tag used in slide and clip filename prefixes. -/
def SegType.tag : SegType → String
  | .question => "q"
  | .answer => "a"

/-- One narrated and displayed unit (types.ts `Segment`).  Durations are
modelled as rationals. -/
structure Segment where
  type : SegType
  text : String
  cardIndex : Nat
  totalCards : Nat
  questionSlug : String
  audioPath : String
  imagePath : String
  audioDuration : ℚ
  totalDuration : ℚ
  deriving DecidableEq, Repr

/-- The per-run parameters consumed by the pipeline (types.ts
`PipelineConfig`, restricted to the fields the core reads). -/
structure PipelineConfig where
  tempDir : String
  voice : String
  codeVoice : String
  questionDelay : ℚ
  answerDelay : ℚ
  cardGap : ℚ
  fontSize : Nat
  backgroundColor : String
  questionColor : String
  answerColor : String
  textColor : String
  force : Bool
  skipTTS : Bool
  deriving DecidableEq, Repr

/-! ### Stage 1: layered configuration resolution (pipeline.ts)

The CLI layer (commander) installs the built-in default as the value of
every option, so `runPipeline` receives `cli.getD dflt`.  The YAML merge
then adopts the file value only when one is present and the received value
still equals the built-in default. -/

/-- The YAML merge step for a delay parameter: the source line
`if (yamlConfig.x !== undefined && config.x === DEFAULT_CONFIG.x)
config.x = yamlConfig.x`. -/
def mergeDelay (received dflt : ℚ) (yamlVal : Option ℚ) : ℚ :=
  match yamlVal with
  | some y => if received = dflt then y else received
  | none => received

/-- The YAML merge step for a voice parameter: the source line
`if (yamlConfig.voice && config.voice === DEFAULT_CONFIG.voice) ...`,
where JS truthiness makes an empty YAML string count as absent. -/
def mergeVoice (received dflt : String) (yamlVal : Option String) : String :=
  match yamlVal with
  | some y => if y ≠ "" ∧ received = dflt then y else received
  | none => received

/-- End-to-end resolution of a delay parameter: the CLI layer collapses an
absent option to the built-in default, then the YAML merge runs. -/
def resolveDelay (dflt : ℚ) (cli : Option ℚ) (yamlVal : Option ℚ) : ℚ :=
  mergeDelay (cli.getD dflt) dflt yamlVal

/-- End-to-end resolution of a voice parameter. -/
def resolveVoice (dflt : String) (cli : Option String) (yamlVal : Option String) : String :=
  mergeVoice (cli.getD dflt) dflt yamlVal

/-! ### Stages 2 to 4 of pipeline.ts (current revision) -/

namespace Pipeline

/-- Audio plan for one question or answer slot (pipeline.ts `AudioPlan`);
its parts have the same shape as tts-preprocess `SynthPart`. -/
structure AudioPlan where
  cardIndex : Nat
  isQuestion : Bool
  rawText : String
  delay : ℚ
  finalAudioPath : String
  parts : List AudioPartPlan
  isMultiPart : Bool
  deriving DecidableEq, Repr

/-- The question plan of card `i`: always single-part, main voice.  The
prefix embeds the card index and the question slug. -/
def qPlanOf (sha slug preprocessForTTS : String → String) (cfg : PipelineConfig)
    (i : Nat) (card : Card) : AudioPlan :=
  let qSlug := slug card.question
  let qTTSText := preprocessForTTS card.question
  let qAudioPath := cachedPath sha cfg.tempDir ("q_" ++ Nat.repr i ++ "_" ++ qSlug)
    (audioCacheKey qTTSText cfg.voice) "wav"
  { cardIndex := i, isQuestion := true, rawText := card.question,
    delay := cfg.questionDelay, finalAudioPath := qAudioPath,
    parts := [⟨qAudioPath, qTTSText, cfg.voice⟩], isMultiPart := false }

/-- The spoken text of one markdown segment of an answer. -/
def rawTTSOf : MdSegment → String
  | .code l c => codeToTTS (.code l c)
  | .text c => c

/-- The answer plan of card `i`: single-part when the answer has no fenced
code block, otherwise one part per markdown segment, with the final
concatenated WAV keyed by the ordered hashes of all parts. -/
def aPlanOf (sha slug preprocessForTTS : String → String) (cfg : PipelineConfig)
    (i : Nat) (card : Card) : AudioPlan :=
  let qSlug := slug card.question
  let mdSegs := parseMarkdown card.answer
  let hasCode := mdSegs.any MdSegment.isCodeKind
  if !hasCode then
    let aTTSText := preprocessForTTS card.answer
    let aAudioPath := cachedPath sha cfg.tempDir ("a_" ++ Nat.repr i ++ "_" ++ qSlug)
      (audioCacheKey aTTSText cfg.voice) "wav"
    { cardIndex := i, isQuestion := false, rawText := card.answer,
      delay := cfg.answerDelay, finalAudioPath := aAudioPath,
      parts := [⟨aAudioPath, aTTSText, cfg.voice⟩], isMultiPart := false }
  else
    let parts : List AudioPartPlan := (mdSegs.enum).map fun js =>
      let seg := js.2
      let ttsText := preprocessForTTS (rawTTSOf seg)
      let v := if seg.isCodeKind then cfg.codeVoice else cfg.voice
      let pre := "a_" ++ Nat.repr i ++ "_" ++ qSlug ++ "_" ++
        (if seg.isCodeKind then "c" else "t") ++ Nat.repr js.1
      ⟨cachedPath sha cfg.tempDir pre (audioCacheKey ttsText v) "wav", ttsText, v⟩
    let partKey := joinSep "|" (parts.map fun p => sha (p.ttsText ++ ":" ++ p.voice))
    let finalAudioPath := cachedPath sha cfg.tempDir ("a_" ++ Nat.repr i ++ "_" ++ qSlug)
      ("md-audio:" ++ partKey) "wav"
    { cardIndex := i, isQuestion := false, rawText := card.answer,
      delay := cfg.answerDelay, finalAudioPath := finalAudioPath,
      parts := parts, isMultiPart := true }

/-- The two plans one card contributes, in slot order. -/
def planPair (sha slug preprocessForTTS : String → String) (cfg : PipelineConfig)
    (i : Nat) (card : Card) : List AudioPlan :=
  [qPlanOf sha slug preprocessForTTS cfg i card,
   aPlanOf sha slug preprocessForTTS cfg i card]

/-- Stage 2 plan construction: one question and one answer plan per card,
in card order (`cards.flatMap`). -/
def audioPlansOf (sha slug preprocessForTTS : String → String) (cfg : PipelineConfig)
    (cards : List Card) : List AudioPlan :=
  (cards.enum).flatMap fun ic => planPair sha slug preprocessForTTS cfg ic.1 ic.2

/-- An observable action of Stage 2 after the `skipTTS` gate. -/
inductive Stage2Ev
  | poolInit (voice : String)
  | synth (part : AudioPartPlan)
  | concatFinal (plan : AudioPlan)
  deriving DecidableEq, Repr

/-- Stage 2 of `runPipeline` as a trace-producing function: partition the
parts into the main-voice and code-voice pools, run the `skipTTS` gate,
then trace pool initialisation, synthesis of uncached parts, and
concatenation of uncached multi-part finals.  An `error` result carries
the thrown message and no trace: the throw precedes all synthesis work. -/
def stage2Run (existsOnDisk : String → Bool) (cfg : PipelineConfig)
    (plans : List AudioPlan) : Except String (List Stage2Ev) :=
  let mainParts := plans.flatMap fun p => p.parts.filter fun pt => pt.voice = cfg.voice
  let codeParts := plans.flatMap fun p => p.parts.filter fun pt => pt.voice ≠ cfg.voice
  let uncachedMain := mainParts.filter fun pt => !isCached existsOnDisk pt.audioPath cfg.force
  let uncachedCode := codeParts.filter fun pt => !isCached existsOnDisk pt.audioPath cfg.force
  let missing := uncachedMain ++ uncachedCode
  if cfg.skipTTS ∧ 0 < missing.length then
    .error ("update requires pre-existing audio for all segments. Missing " ++
      Nat.repr missing.length ++
      " file(s).\n  Run \"qa-video generate\" first to synthesize audio.")
  else
    .ok
      ((if !cfg.skipTTS ∧ ¬uncachedMain.isEmpty then
          Stage2Ev.poolInit cfg.voice :: uncachedMain.map .synth
        else []) ++
       (if !cfg.skipTTS ∧ ¬uncachedCode.isEmpty then
          Stage2Ev.poolInit cfg.codeVoice :: uncachedCode.map .synth
        else []) ++
       (plans.filter fun p =>
          p.isMultiPart && !isCached existsOnDisk p.finalAudioPath cfg.force).map .concatFinal)

/-- Phase 2D: the Segment built from one plan, with the measured duration
of its final WAV (`getAudioDuration` is the duration oracle `dur`). -/
def segOfPlan (slug : String → String) (dur : String → ℚ) (cards : List Card)
    (plan : AudioPlan) : Segment :=
  { type := if plan.isQuestion then .question else .answer
    text := plan.rawText
    cardIndex := plan.cardIndex
    totalCards := cards.length
    questionSlug := slug (cards.getD plan.cardIndex ⟨"", ""⟩).question
    audioPath := plan.finalAudioPath
    imagePath := ""
    audioDuration := dur plan.finalAudioPath
    totalDuration := dur plan.finalAudioPath + plan.delay }

/-- The segment list at the end of Stage 2 (image paths not yet filled). -/
def segmentsOf (sha slug preprocessForTTS : String → String) (dur : String → ℚ)
    (cfg : PipelineConfig) (cards : List Card) : List Segment :=
  (audioPlansOf sha slug preprocessForTTS cfg cards).map (segOfPlan slug dur cards)

/-- Stage 3 gap slide cache key. -/
def gapSlideHash (cfg : PipelineConfig) (nCards : Nat) : String :=
  "slide:gap:" ++ cfg.backgroundColor ++ ":" ++ Nat.repr cfg.fontSize ++ ":" ++ Nat.repr nCards

/-- Stage 3 gap slide path. -/
def gapSlidePath (sha : String → String) (cfg : PipelineConfig) (nCards : Nat) : String :=
  cachedPath sha cfg.tempDir "slide_gap" (gapSlideHash cfg nCards) "png"

/-- Stage 3 slide cache key of a segment. -/
def slideHashOf (cfg : PipelineConfig) (seg : Segment) : String :=
  "slide:v3:" ++ seg.text ++ ":" ++ seg.type.str ++ ":" ++ Nat.repr seg.cardIndex ++ ":" ++
    Nat.repr seg.totalCards ++ ":" ++ Nat.repr cfg.fontSize ++ ":" ++ cfg.questionColor ++
    ":" ++ cfg.answerColor ++ ":" ++ cfg.textColor

/-- Stage 3: fill in the image path of the segment at position `p`. -/
def withImagePath (sha : String → String) (cfg : PipelineConfig) (p : Nat)
    (seg : Segment) : Segment :=
  { seg with
    imagePath := cachedPath sha cfg.tempDir
      ("slide_" ++ Nat.repr p ++ "_" ++ seg.type.tag ++ "_" ++ seg.questionSlug)
      (slideHashOf cfg seg) "png" }

/-- The segment list after Stage 3 assigned every slide path. -/
def segmentsWithImages (sha slug preprocessForTTS : String → String) (dur : String → ℚ)
    (cfg : PipelineConfig) (cards : List Card) : List Segment :=
  ((segmentsOf sha slug preprocessForTTS dur cfg cards).enum).map fun ps =>
    withImagePath sha cfg ps.1 ps.2

/-- A Stage 4 clip descriptor: a segment clip or a silent gap clip. -/
inductive ClipDesc
  | segment (path : String) (seg : Segment)
  | gap (path : String)
  deriving DecidableEq, Repr

/-- The cache path of a clip descriptor. -/
def ClipDesc.path : ClipDesc → String
  | .segment p _ => p
  | .gap p => p

/-- Stage 4 segment clip cache key: hash of the audio path, hash of the
slide path and the total duration, nothing else. -/
def clipKeyOf (sha : String → String) (seg : Segment) : String :=
  "clip:v2:" ++ sha seg.audioPath ++ ":" ++ sha seg.imagePath ++ ":" ++
    toString seg.totalDuration

/-- The cache path of the segment clip at position `p`. -/
def segClipPath (sha : String → String) (cfg : PipelineConfig) (p : Nat) (seg : Segment) : String :=
  cachedPath sha cfg.tempDir
    ("clip_" ++ Nat.repr p ++ "_" ++ seg.type.tag ++ "_" ++ seg.questionSlug)
    (clipKeyOf sha seg) "mp4"

/-- The clip descriptors contributed by the segment at position `p`: its
segment clip, then a gap clip when it is an answer of a non-final card and
the configured gap is positive (`seg.cardIndex < seg.totalCards - 1` over
JS numbers is `cardIndex + 1 < totalCards` over naturals). -/
def clipsForSeg (sha : String → String) (cfg : PipelineConfig) (nCards : Nat)
    (p : Nat) (seg : Segment) : List ClipDesc :=
  let segClip := ClipDesc.segment (segClipPath sha cfg p seg) seg
  let gapClips :=
    if seg.type = .answer ∧ seg.cardIndex + 1 < seg.totalCards ∧ 0 < cfg.cardGap then
      [ClipDesc.gap
        (cachedPath sha cfg.tempDir ("gap_" ++ Nat.repr p ++ "_" ++ seg.questionSlug)
          ("gap:" ++ sha (gapSlideHash cfg nCards) ++ ":" ++ toString cfg.cardGap) "mp4")]
    else []
  segClip :: gapClips

/-- Stage 4 descriptor construction, grouped by originating segment. -/
def clipGroupsOf (sha slug preprocessForTTS : String → String) (dur : String → ℚ)
    (cfg : PipelineConfig) (cards : List Card) : List (List ClipDesc) :=
  ((segmentsWithImages sha slug preprocessForTTS dur cfg cards).enum).map fun ps =>
    clipsForSeg sha cfg cards.length ps.1 ps.2

/-- The ordered clip descriptor list of Stage 4. -/
def clipDescsOf (sha slug preprocessForTTS : String → String) (dur : String → ℚ)
    (cfg : PipelineConfig) (cards : List Card) : List ClipDesc :=
  (clipGroupsOf sha slug preprocessForTTS dur cfg cards).flatten

/-- The ordered path list handed to `concatenateClips`
(`clipDescs.map(d => d.path)`), fixed before any encode work runs. -/
def clipPathsOf (sha slug preprocessForTTS : String → String) (dur : String → ℚ)
    (cfg : PipelineConfig) (cards : List Card) : List String :=
  (clipDescsOf sha slug preprocessForTTS dur cfg cards).map ClipDesc.path

end Pipeline

/-! ### cache.ts `removeStale` -/

/-- JS `String.prototype.startsWith` over character lists. -/
def strStartsWith (s p : String) : Bool :=
  p.data.isPrefixOf s.data

/-- JS `String.prototype.endsWith` over character lists. -/
def strEndsWith (s p : String) : Bool :=
  p.data.reverse.isPrefixOf s.data.reverse

/-- The `.catch(() => {})` around `unlink`: a deletion failure is
swallowed. -/
def unlinkCaught (unlink : String → Except String Unit) (full : String) : Except String Unit :=
  match unlink full with
  | .ok _ => .ok ()
  | .error _ => .ok ()

/-- cache.ts `removeStale` over the directory listing `files`
(`readdirSync`), with `unlink` the deletion oracle: walk the listing, and
for every name that starts with `pre ++ "_"` and ends with `"." ++ ext`
whose full path differs from `keepPath`, attempt deletion with failures
swallowed.  Returns the attempted deletions in listing order. -/
def removeStale (unlink : String → Except String Unit) (files : List String)
    (tempDir pre ext keepPath : String) : Except String (List String) :=
  match files with
  | [] => .ok []
  | f :: fs =>
    let full := tempDir ++ "/" ++ f
    if strStartsWith f (pre ++ "_") ∧ strEndsWith f ("." ++ ext) ∧ full ≠ keepPath then
      match unlinkCaught unlink full with
      | .ok _ =>
        match removeStale unlink fs tempDir pre ext keepPath with
        | .ok rest => .ok (full :: rest)
        | .error e => .error e
      | .error e => .error e
    else
      removeStale unlink fs tempDir pre ext keepPath

/-! ### tts-pool.ts as a transition system

A worker is `none` when idle and `some t` when busy with the job `t`
(`ProcState.busy` plus the identity of the in-flight message).  `queue` is
the FIFO job queue, `pending` the keys of the pending map in insertion
order, `nextId` the id counter. -/

structure PoolState where
  workers : List (Option Nat)
  queue : List Nat
  pending : List Nat
  nextId : Nat
  deriving DecidableEq, Repr

/-- Index of the first idle worker (`states.find(s => !s.busy)`). -/
def findIdle : List (Option Nat) → Option Nat
  | [] => none
  | none :: _ => some 0
  | some _ :: rest => (findIdle rest).map (· + 1)

/-- The `dispatch` loop: while the queue is nonempty and an idle worker
exists, pop the head job, mark that worker busy with it and record it
pending. -/
def dispatchLoop : List (Option Nat) → List Nat → List Nat →
    List (Option Nat) × List Nat × List Nat
  | ws, [], pend => (ws, [], pend)
  | ws, t :: qs, pend =>
    match findIdle ws with
    | none => (ws, t :: qs, pend)
    | some w => dispatchLoop (ws.set w (some t)) qs (pend ++ [t])

/-- Run `dispatch` on a pool state. -/
def dispatch (s : PoolState) : PoolState :=
  let r := dispatchLoop s.workers s.queue s.pending
  { s with workers := r.1, queue := r.2.1, pending := r.2.2 }

/-- `synthesize`: enqueue a fresh job id and dispatch. -/
def poolSynthesize (s : PoolState) : PoolState :=
  dispatch { s with queue := s.queue ++ [s.nextId], nextId := s.nextId + 1 }

/-- Arrival of worker `w`'s completion or error message: only then is that
worker's busy flag reset and its job removed from pending, followed by a
dispatch.  A message from a worker that is not busy resolves no task
(`if (!task) return`). -/
def poolComplete (s : PoolState) (w : Nat) : PoolState :=
  match s.workers.get? w with
  | some (some t) =>
    dispatch { s with workers := s.workers.set w none, pending := s.pending.erase t }
  | _ => s

/-- An external event of the pool: a `synthesize` call, or a completion
or error message from worker `w`. -/
inductive PoolEv
  | submit
  | complete (w : Nat)
  deriving DecidableEq, Repr

def applyPoolEv (s : PoolState) : PoolEv → PoolState
  | .submit => poolSynthesize s
  | .complete w => poolComplete s w

/-- The pool after `init` with `k` ready workers. -/
def initPool (k : Nat) : PoolState :=
  ⟨List.replicate k none, [], [], 0⟩

/-- The pool state after an arbitrary interleaving of events. -/
def runPool (k : Nat) (evs : List PoolEv) : PoolState :=
  evs.foldl applyPoolEv (initPool k)

/-! ### The bounded concurrency runner as a transition system

pipeline.ts `runConcurrent`: `Math.min(limit, tasks.length)` workers each
loop `const i = next++; results[i] = await tasks[i]()`.  Worker `w` being
scheduled while idle performs the (synchronous, hence atomic) index grab
or exits when the tasks are exhausted; being scheduled while running
completes its awaited task.  `task i` is the value the `i`-th task
resolves with (every task succeeds). -/

inductive WStatus
  | idle
  | running (i : Nat)
  | done
  deriving DecidableEq, Repr

structure RCState (α : Type) where
  next : Nat
  results : List (Option α)
  workers : List WStatus
  deriving Repr

/-- One scheduler step: let worker `w` run until its next suspension
point.  Steps on a finished or out-of-range worker do nothing. -/
def rcStep {α : Type} (n : Nat) (task : Nat → α) (s : RCState α) (w : Nat) : RCState α :=
  match s.workers.get? w with
  | some .idle =>
    if s.next < n then
      { s with next := s.next + 1, workers := s.workers.set w (.running s.next) }
    else
      { s with workers := s.workers.set w .done }
  | some (.running i) =>
    { s with results := s.results.set i (some (task i)), workers := s.workers.set w .idle }
  | _ => s

/-- The runner state before any task ran: `min limit n` workers, all
idle, and an all-`none` results array of length `n`. -/
def rcInit (α : Type) (n limit : Nat) : RCState α :=
  ⟨0, List.replicate n none, List.replicate (min limit n) .idle⟩

/-- The runner state after an arbitrary schedule (list of worker
choices). -/
def rcRun {α : Type} (n : Nat) (task : Nat → α) (limit : Nat) (sched : List Nat) : RCState α :=
  sched.foldl (rcStep n task) (rcInit α n limit)

/-! ### Derived notions used by the claim statements -/

/-- The key of a multi-part final WAV as a function of the parts: the
ordered concatenation of the hashes of each (text, voice) pair. -/
def mdAudioKeyOf (sha : String → String) (parts : List AudioPartPlan) : String :=
  "md-audio:" ++ joinSep "|" (parts.map fun p => sha (p.ttsText ++ ":" ++ p.voice))

/-- The number of required audio artifacts not found in the cache
(`missing.length` of the `skipTTS` gate). -/
def missingCountOf (existsOnDisk : String → Bool) (cfg : PipelineConfig)
    (plans : List Pipeline.AudioPlan) : Nat :=
  (((plans.flatMap fun p => p.parts.filter fun pt => pt.voice = cfg.voice).filter
      fun pt => !isCached existsOnDisk pt.audioPath cfg.force) ++
   ((plans.flatMap fun p => p.parts.filter fun pt => pt.voice ≠ cfg.voice).filter
      fun pt => !isCached existsOnDisk pt.audioPath cfg.force)).length

/-- A markdown segment contributes no TTS part: its candidate texts all
preprocess to whitespace. -/
def segYieldsNothing (preprocessForTTS : String → String) : MdSegment → Prop
  | .code l c => jsTrim (preprocessForTTS (codeToTTS (.code l c))) = ""
  | .text c => ∀ ip ∈ splitByInlineCode c, jsTrim (preprocessForTTS ip.1) = ""

/-- Pool invariant: the pending map holds exactly the jobs the busy
workers are working on, and the worker count is fixed. -/
def PoolInv (k : Nat) (s : PoolState) : Prop :=
  List.Perm s.pending (s.workers.filterMap id) ∧ s.workers.length = k

/-- Runner invariant: the results array has one slot per task; the grab
counter never passes the task count; the worker count is fixed; every
grabbed index is either already written with its task's value or held by
a running worker; running workers hold grabbed indices; and a worker
only exits once the tasks are exhausted. -/
def RCInv (n limit : Nat) {α : Type} (task : Nat → α) (s : RCState α) : Prop :=
  s.results.length = n ∧ s.next ≤ n ∧ s.workers.length = min limit n ∧
  (∀ j, j < s.next → s.results.get? j = some (some (task j)) ∨
    ∃ w, s.workers.get? w = some (.running j)) ∧
  (∀ w i, s.workers.get? w = some (.running i) → i < s.next) ∧
  ((∃ st ∈ s.workers, st = WStatus.done) → n ≤ s.next)

/-! ## Helper lemmas -/

/-- Strings are equal iff their character lists are. -/
theorem str_data_inj {s t : String} (h : s.data = t.data) : s = t :=
  String.ext h

theorem str_append_data (a b : String) : (a ++ b).data = a.data ++ b.data :=
  String.data_append a b

theorem str_length_data (s : String) : s.length = s.data.length := rfl

theorem str_append_cancel_left {a b c : String} (h : a ++ b = a ++ c) : b = c := by
  apply str_data_inj
  have h2 := congrArg String.data h
  simp only [str_append_data] at h2
  exact List.append_cancel_left h2

theorem str_append_length (a b : String) : (a ++ b).length = a.length + b.length := by
  show (a ++ b).data.length = a.data.length + b.data.length
  rw [str_append_data, List.length_append]

theorem str_append_assoc (a b c : String) : a ++ b ++ c = a ++ (b ++ c) := by
  apply str_data_inj
  simp [str_append_data, List.append_assoc]

/-- All-length-8 joinSep is at least 8 characters long on a nonempty
list. -/
theorem joinSep_len8_pos (x : String) (xs : List String) (hx : x.length = 8) :
    8 ≤ (joinSep "|" (x :: xs)).length := by
  cases xs with
  | nil => simp [joinSep, hx]
  | cons y ys =>
    simp only [joinSep]
    rw [str_append_length, str_append_length]
    omega

/-- joinSep with the bar separator is injective on lists of length-8
strings. -/
theorem joinSep_inj8 : ∀ (l1 l2 : List String),
    (∀ s ∈ l1, s.length = 8) → (∀ s ∈ l2, s.length = 8) →
    joinSep "|" l1 = joinSep "|" l2 → l1 = l2 := by
  intro l1
  induction l1 with
  | nil =>
    intro l2 _ h2 h
    cases l2 with
    | nil => rfl
    | cons y ys =>
      exfalso
      have hy : y.length = 8 := h2 y (by simp)
      have := joinSep_len8_pos y ys hy
      rw [← h] at this
      simp [joinSep] at this
  | cons x xs ih =>
    intro l2 h1 h2 h
    cases l2 with
    | nil =>
      exfalso
      have hx : x.length = 8 := h1 x (by simp)
      have := joinSep_len8_pos x xs hx
      rw [h] at this
      simp [joinSep] at this
    | cons y ys =>
      have hx : x.length = 8 := h1 x (by simp)
      have hy : y.length = 8 := h2 y (by simp)
      cases xs with
      | nil =>
        cases ys with
        | nil => simpa [joinSep] using h
        | cons z zs =>
          exfalso
          simp only [joinSep] at h
          have hl := congrArg String.length h
          rw [str_append_length, str_append_length] at hl
          have := joinSep_len8_pos z zs (h2 z (by simp))
          simp [hx, hy, str_append_length] at hl
          omega
      | cons w ws =>
        cases ys with
        | nil =>
          exfalso
          simp only [joinSep] at h
          have hl := congrArg String.length h
          rw [str_append_length, str_append_length] at hl
          have := joinSep_len8_pos w ws (h1 w (by simp))
          simp [hx, hy, str_append_length] at hl
          omega
        | cons z zs =>
          simp only [joinSep] at h
          have hdata := congrArg String.data h
          simp only [str_append_data, List.append_assoc] at hdata
          have hxy := List.append_inj hdata (by rw [str_length_data] at hx hy; omega)
          have hxeq : x = y := str_data_inj hxy.1
          have hrest : joinSep "|" (w :: ws) = joinSep "|" (z :: zs) := by
            apply str_append_cancel_left (a := "|")
            apply str_data_inj
            simpa [str_append_data] using hxy.2
          have := ih (z :: zs) (fun s hs => h1 s (by simp [hs])) (fun s hs => h2 s (by simp [hs])) hrest
          rw [hxeq, this]

/-- Digit characters produced by `Nat.digitChar` below base 10. -/
theorem digitChar_isDigit {m : Nat} (h : m < 10) : (Nat.digitChar m).isDigit = true := by
  interval_cases m <;> decide

/-- Every character pushed by the numeral printer is a digit. -/
theorem toDigitsCore_digits :
    ∀ (fuel n : Nat) (ds : List Char), (∀ c ∈ ds, c.isDigit = true) →
    ∀ c ∈ Nat.toDigitsCore 10 fuel n ds, c.isDigit = true := by
  intro fuel
  induction fuel with
  | zero =>
    intro n ds hds
    simpa [Nat.toDigitsCore] using hds
  | succ f ih =>
    intro n ds hds
    rw [Nat.toDigitsCore]
    have hd : (Nat.digitChar (n % 10)).isDigit = true :=
      digitChar_isDigit (Nat.mod_lt n (by omega))
    split
    · intro c hc
      rcases List.mem_cons.mp hc with h | h
      · rw [h]; exact hd
      · exact hds c h
    · exact ih (n / 10) (Nat.digitChar (n % 10) :: ds) (by
        intro c hc
        rcases List.mem_cons.mp hc with h | h
        · rw [h]; exact hd
        · exact hds c h)

/-- Every character of `Nat.repr` is a digit. -/
theorem repr_digits (n : Nat) : ∀ c ∈ (Nat.repr n).data, c.isDigit = true := by
  intro c hc
  exact toDigitsCore_digits (n + 1) n [] (by simp) c hc

/-- `List.isPrefixOf` as an existential. -/
theorem isPrefixOf_exists : ∀ (p s : List Char), p.isPrefixOf s = true ↔ ∃ t, s = p ++ t := by
  intro p
  induction p with
  | nil =>
    intro s
    simp [List.isPrefixOf]
  | cons a as ih =>
    intro s
    cases s with
    | nil => simp [List.isPrefixOf]
    | cons b bs =>
      simp only [List.isPrefixOf, Bool.and_eq_true, beq_iff_eq, ih bs]
      constructor
      · rintro ⟨rfl, t, rfl⟩
        exact ⟨t, rfl⟩
      · rintro ⟨t, ht⟩
        injection ht with h1 h2
        exact ⟨h1.symm ▸ rfl, t, h2⟩

/-- Two all-digit runs followed by an underscore align only when equal. -/
theorem digits_underscore_inj : ∀ (a b t1 t2 : List Char),
    (∀ c ∈ a, c.isDigit = true) → (∀ c ∈ b, c.isDigit = true) →
    a ++ '_' :: t1 = b ++ '_' :: t2 → a = b := by
  intro a
  induction a with
  | nil =>
    intro b t1 t2 _ hb h
    cases b with
    | nil => rfl
    | cons x xs =>
      exfalso
      simp only [List.nil_append, List.cons_append] at h
      injection h with h1 _
      have := hb x (by simp)
      rw [← h1] at this
      simp at this
  | cons x xs ih =>
    intro b t1 t2 ha hb h
    cases b with
    | nil =>
      exfalso
      simp only [List.cons_append, List.nil_append] at h
      injection h with h1 _
      have := ha x (by simp)
      rw [h1] at this
      simp at this
    | cons y ys =>
      simp only [List.cons_append] at h
      injection h with h1 h2
      rw [h1, ih ys t1 t2 (fun c hc => ha c (by simp [hc])) (fun c hc => hb c (by simp [hc])) h2]

/-- Scoping to one card never matches a file of a card with a different
printed index: the underscore after the index cannot align with a digit. -/
theorem stale_scope_safe (tag rest : String) (j k : Nat) (hjk : Nat.repr j ≠ Nat.repr k) :
    strStartsWith (tag ++ "_" ++ Nat.repr k ++ "_" ++ rest) (tag ++ "_" ++ Nat.repr j ++ "_") = false := by
  by_contra hcontra
  rw [Bool.not_eq_false, strStartsWith, isPrefixOf_exists] at hcontra
  obtain ⟨t, ht⟩ := hcontra
  simp only [str_append_data, List.append_assoc] at ht
  have ht2 := List.append_cancel_left (List.append_cancel_left ht)
  have ht3 : (Nat.repr k).data ++ '_' :: rest.data = (Nat.repr j).data ++ '_' :: t := by
    simpa using ht2
  exact hjk (str_data_inj (digits_underscore_inj _ _ _ _ (repr_digits k) (repr_digits j) ht3)).symm

/-! ## Claims -/

/-- C10: the audio cache key is a deterministic function of the
(ttsText, voice) pair; it lives in the `audio-chunked:` namespace exactly
when the text length exceeds `MAX_CHUNK_CHARS`, and the two namespaces
never collide, so a text crossing the threshold never reuses a key from
the other side. -/
theorem audioCacheKey_namespaces :
    (∀ t1 t2 v1 v2 : String, t1 = t2 → v1 = v2 →
      audioCacheKey t1 v1 = audioCacheKey t2 v2) ∧
    (∀ t v : String,
      (audioCacheKey t v = "audio-chunked:" ++ t ++ ":" ++ v ↔ t.length > MAX_CHUNK_CHARS) ∧
      (audioCacheKey t v = "audio:" ++ t ++ ":" ++ v ↔ ¬t.length > MAX_CHUNK_CHARS)) ∧
    (∀ t1 t2 v1 v2 : String, t1.length ≤ MAX_CHUNK_CHARS → MAX_CHUNK_CHARS < t2.length →
      audioCacheKey t1 v1 ≠ audioCacheKey t2 v2) := by
  have hne : ∀ t1 t2 v1 v2 : String,
      "audio:" ++ t1 ++ ":" ++ v1 ≠ "audio-chunked:" ++ t2 ++ ":" ++ v2 := by
    intro t1 t2 v1 v2 h
    have h2 := congrArg String.data h
    simp only [str_append_data] at h2
    have h6 := congrArg (List.take 6) h2
    simp only [List.append_assoc] at h6
    rw [List.take_append_of_le_length (by simp), List.take_append_of_le_length (by simp)] at h6
    simp at h6
  have key_pos : ∀ t v : String, t.length > MAX_CHUNK_CHARS →
      audioCacheKey t v = "audio-chunked:" ++ t ++ ":" ++ v := by
    intro t v h
    unfold audioCacheKey
    rw [if_pos h]
  have key_neg : ∀ t v : String, ¬t.length > MAX_CHUNK_CHARS →
      audioCacheKey t v = "audio:" ++ t ++ ":" ++ v := by
    intro t v h
    unfold audioCacheKey
    rw [if_neg h]
  refine ⟨fun t1 t2 v1 v2 ht hv => by rw [ht, hv], fun t v => ⟨⟨?_, key_pos t v⟩, ⟨?_, key_neg t v⟩⟩, ?_⟩
  · intro h
    by_contra hlen
    rw [key_neg t v hlen] at h
    exact hne t t v v h
  · intro h
    intro hlen
    rw [key_pos t v hlen] at h
    exact hne t t v v h.symm
  · intro t1 t2 v1 v2 h1 h2 h
    rw [key_neg t1 v1 (by omega), key_pos t2 v2 (by omega)] at h
    exact hne t1 t2 v1 v2 h

/-- C10 witness: concrete keys on both sides of the threshold. -/
theorem audioCacheKey_namespaces_witness :
    audioCacheKey "ab" "v" ≠ audioCacheKey (String.mk (List.replicate 201 'x')) "v" := by
  refine audioCacheKey_namespaces.2.2 "ab" (String.mk (List.replicate 201 'x')) "v" "v" ?_ ?_
  · decide
  · show 200 < (String.mk (List.replicate 201 'x')).length
    simp [str_length_data]

/-- C9: `splitIntoTTSParts` always returns a nonempty list, and when no
markdown segment of the text yields non-empty preprocessed TTS text it
returns exactly one prose part holding the whole preprocessed input. -/
theorem splitIntoTTSParts_total (preprocessForTTS : String → String) (text : String) :
    splitIntoTTSParts preprocessForTTS text ≠ [] ∧
    ((∀ seg ∈ parseMarkdown text, segYieldsNothing preprocessForTTS seg) →
      splitIntoTTSParts preprocessForTTS text = [⟨preprocessForTTS text, false⟩]) := by
  constructor
  · rw [splitIntoTTSParts]
    split
    · simp
    · rename_i hne
      simpa using hne
  · intro h
    have hparts : ttsPartsOf preprocessForTTS text = [] := by
      rw [ttsPartsOf, List.flatMap_eq_nil_iff]
      intro seg hseg
      have hy := h seg hseg
      cases seg with
      | code l c =>
        simp only [segYieldsNothing] at hy
        simp [ttsPartsOfSeg, hy]
      | text c =>
        simp only [segYieldsNothing] at hy
        rw [ttsPartsOfSeg, List.flatMap_eq_nil_iff]
        intro ip hip
        simp [hy ip hip]
    rw [splitIntoTTSParts]
    simp [hparts]

/-- C6 counterexample: the deletion predicate is `pre ++ "_"`, not the
bare prefix.  The file `q_1x_y.wav` starts with the prefix `q_1`, ends
with `.wav` and is not the kept path, so the claim says it is deleted;
`removeStale` attempts no deletion at all on this listing. -/
theorem removeStale_counterexample :
    removeStale (fun _ => .ok ()) ["q_1x_y.wav"] "/t" "q_1" "wav" "/t/keep.wav" = .ok [] ∧
    strStartsWith "q_1x_y.wav" "q_1" = true ∧
    strEndsWith "q_1x_y.wav" ".wav" = true ∧
    "/t" ++ "/" ++ "q_1x_y.wav" ≠ "/t/keep.wav" := by
  refine ⟨rfl, by decide, by decide, by decide⟩

/-- C6 (amended): `removeStale` deletes exactly the files whose names
start with the prefix followed by an underscore and end with the dotted
extension, keeps `keepPath`, touches nothing else, never propagates a
deletion failure, and an invocation scoped to one card index never
matches a file of a card with a different printed index. -/
theorem removeStale_spec :
    ∀ (unlink : String → Except String Unit) (files : List String)
      (tempDir pre ext keepPath : String),
    (removeStale unlink files tempDir pre ext keepPath =
      .ok (files.filterMap fun f =>
        if strStartsWith f (pre ++ "_") ∧ strEndsWith f ("." ++ ext) ∧
            tempDir ++ "/" ++ f ≠ keepPath
        then some (tempDir ++ "/" ++ f) else none)) ∧
    (∀ f : String, strStartsWith f (pre ++ "_") = false →
      ∀ deleted, removeStale unlink files tempDir pre ext keepPath = .ok deleted →
        tempDir ++ "/" ++ f ∉ deleted) ∧
    (∀ (tag rest : String) (j k : Nat), Nat.repr j ≠ Nat.repr k →
      strStartsWith (tag ++ "_" ++ Nat.repr k ++ "_" ++ rest)
        (tag ++ "_" ++ Nat.repr j ++ "_") = false) := by
  have hexact : ∀ (unlink : String → Except String Unit) (files : List String)
      (tempDir pre ext keepPath : String),
      removeStale unlink files tempDir pre ext keepPath =
        .ok (files.filterMap fun f =>
          if strStartsWith f (pre ++ "_") ∧ strEndsWith f ("." ++ ext) ∧
              tempDir ++ "/" ++ f ≠ keepPath
          then some (tempDir ++ "/" ++ f) else none) := by
    intro unlink files tempDir pre ext keepPath
    induction files with
    | nil => rfl
    | cons f fs ih =>
      rw [removeStale, List.filterMap_cons]
      by_cases hc : strStartsWith f (pre ++ "_") ∧ strEndsWith f ("." ++ ext) ∧
          tempDir ++ "/" ++ f ≠ keepPath
      · rw [if_pos hc, if_pos hc]
        have hu : unlinkCaught unlink (tempDir ++ "/" ++ f) = .ok () := by
          unfold unlinkCaught
          cases unlink (tempDir ++ "/" ++ f) <;> rfl
        rw [hu, ih]
      · rw [if_neg hc, if_neg hc, ih]
  intro unlink files tempDir pre ext keepPath
  refine ⟨hexact unlink files tempDir pre ext keepPath, ?_, fun tag rest j k hjk => stale_scope_safe tag rest j k hjk⟩
  intro f hf deleted hdel hmem
  rw [hexact unlink files tempDir pre ext keepPath] at hdel
  injection hdel with hdel
  rw [← hdel] at hmem
  obtain ⟨g, _, hg⟩ := List.mem_filterMap.mp hmem
  by_cases hc : strStartsWith g (pre ++ "_") ∧ strEndsWith g ("." ++ ext) ∧
      tempDir ++ "/" ++ g ≠ keepPath
  · rw [if_pos hc] at hg
    injection hg with hg
    have : g = f := str_append_cancel_left (a := tempDir ++ "/") hg
    rw [this] at hc
    rw [hc.1] at hf
    exact Bool.true_eq_false.mp hf
  · rw [if_neg hc] at hg
    exact Option.noConfusion hg

/-- C6 witness for the amended theorem: a failing unlink is swallowed, the
in-scope stale file is the only deletion, and a `q_10` file is out of
scope for `q_1`. -/
theorem removeStale_spec_witness :
    removeStale (fun _ => .error "EACCES") ["q_1_old.wav", "q_10_z.wav", "notes.txt"]
        "/t" "q_1" "wav" "/t/q_1_keep.wav" = .ok ["/t/q_1_old.wav"] ∧
    strStartsWith "q_10_z.wav" ("q_" ++ Nat.repr 1 ++ "_") = false := by
  constructor
  · rw [(removeStale_spec (fun _ => .error "EACCES") ["q_1_old.wav", "q_10_z.wav", "notes.txt"]
      "/t" "q_1" "wav" "/t/q_1_keep.wav").1]
    rfl
  · have h := (removeStale_spec (fun _ => .error "EACCES") [] "/t" "q_1" "wav" "k").2.2
      "q" "z.wav" 1 10 (by decide)
    have e1 : ("q" ++ "_" ++ Nat.repr 10 ++ "_" ++ "z.wav" : String) = "q_10_z.wav" := by decide
    have e2 : ("q" ++ "_" ++ Nat.repr 1 ++ "_" : String) = "q_" ++ Nat.repr 1 ++ "_" := by decide
    rw [e1, e2] at h
    exact h

/-- C9 witness: a pure-whitespace input under a preprocessor that strips
it produces the single whole-text prose part, and the list is nonempty. -/
theorem splitIntoTTSParts_total_witness :
    splitIntoTTSParts (fun _ => "") "   " ≠ [] ∧
    splitIntoTTSParts (fun _ => "") "   " = [⟨"", false⟩] := by
  refine ⟨(splitIntoTTSParts_total (fun _ => "") "   ").1, ?_⟩
  refine (splitIntoTTSParts_total (fun _ => "") "   ").2 ?_
  intro seg hseg
  cases seg with
  | code l c =>
    show jsTrim "" = ""
    decide
  | text c =>
    intro ip _
    show jsTrim "" = ""
    decide

/-- C7: with the skipTTS (update) flag set, Stage 2 throws exactly when at
least one required audio artifact is uncached; the thrown message embeds
the count of missing files; the error result carries no Stage 2 events, so
no pool is created and no synthesis begins; and when everything is cached
the gate passes and the stage proceeds (with neither pool initialisation
nor synthesis events under skipTTS). -/
theorem skipTTS_gate (existsOnDisk : String → Bool) (cfg : PipelineConfig)
    (plans : List Pipeline.AudioPlan) (hsk : cfg.skipTTS = true) :
    (0 < missingCountOf existsOnDisk cfg plans →
      Pipeline.stage2Run existsOnDisk cfg plans =
        .error ("update requires pre-existing audio for all segments. Missing " ++
          Nat.repr (missingCountOf existsOnDisk cfg plans) ++
          " file(s).\n  Run \"qa-video generate\" first to synthesize audio.")) ∧
    (missingCountOf existsOnDisk cfg plans = 0 →
      Pipeline.stage2Run existsOnDisk cfg plans =
        .ok ((plans.filter fun p =>
          p.isMultiPart && !isCached existsOnDisk p.finalAudioPath cfg.force).map .concatFinal)) := by
  constructor
  · intro hmiss
    rw [Pipeline.stage2Run]
    split
    · rfl
    · rename_i hcond
      exact absurd ⟨hsk, hmiss⟩ hcond
  · intro hmiss
    rw [Pipeline.stage2Run]
    split
    · rename_i hcond
      exact absurd hcond.2 (by rw [missingCountOf] at hmiss; omega)
    · rw [if_neg (by rintro ⟨hns, _⟩; rw [hsk] at hns; simp at hns)]
      rw [if_neg (by rintro ⟨hns, _⟩; rw [hsk] at hns; simp at hns)]
      rfl

/-- C7 witness: one uncached card under skipTTS throws with the count 2
in the message; a fully cached run passes the gate. -/
theorem skipTTS_gate_witness :
    (Pipeline.stage2Run (fun _ => false)
      { tempDir := "/t", voice := "m", codeVoice := "c", questionDelay := 0, answerDelay := 0,
        cardGap := 0, fontSize := 52, backgroundColor := "b", questionColor := "q",
        answerColor := "a", textColor := "w", force := false, skipTTS := true }
      (Pipeline.audioPlansOf id id id
        { tempDir := "/t", voice := "m", codeVoice := "c", questionDelay := 0, answerDelay := 0,
          cardGap := 0, fontSize := 52, backgroundColor := "b", questionColor := "q",
          answerColor := "a", textColor := "w", force := false, skipTTS := true }
        [⟨"hello", "world"⟩]) =
      .error ("update requires pre-existing audio for all segments. Missing " ++
        Nat.repr 2 ++
        " file(s).\n  Run \"qa-video generate\" first to synthesize audio.")) ∧
    (Pipeline.stage2Run (fun _ => true)
      { tempDir := "/t", voice := "m", codeVoice := "c", questionDelay := 0, answerDelay := 0,
        cardGap := 0, fontSize := 52, backgroundColor := "b", questionColor := "q",
        answerColor := "a", textColor := "w", force := false, skipTTS := true }
      (Pipeline.audioPlansOf id id id
        { tempDir := "/t", voice := "m", codeVoice := "c", questionDelay := 0, answerDelay := 0,
          cardGap := 0, fontSize := 52, backgroundColor := "b", questionColor := "q",
          answerColor := "a", textColor := "w", force := false, skipTTS := true }
        [⟨"hello", "world"⟩]) = .ok []) := by
  constructor
  · have h := (skipTTS_gate (fun _ => false)
      { tempDir := "/t", voice := "m", codeVoice := "c", questionDelay := 0, answerDelay := 0,
        cardGap := 0, fontSize := 52, backgroundColor := "b", questionColor := "q",
        answerColor := "a", textColor := "w", force := false, skipTTS := true }
      (Pipeline.audioPlansOf id id id
        { tempDir := "/t", voice := "m", codeVoice := "c", questionDelay := 0, answerDelay := 0,
          cardGap := 0, fontSize := 52, backgroundColor := "b", questionColor := "q",
          answerColor := "a", textColor := "w", force := false, skipTTS := true }
        [⟨"hello", "world"⟩]) rfl).1 (by decide)
    have hc : missingCountOf (fun _ => false)
        { tempDir := "/t", voice := "m", codeVoice := "c", questionDelay := 0, answerDelay := 0,
          cardGap := 0, fontSize := 52, backgroundColor := "b", questionColor := "q",
          answerColor := "a", textColor := "w", force := false, skipTTS := true }
        (Pipeline.audioPlansOf id id id
          { tempDir := "/t", voice := "m", codeVoice := "c", questionDelay := 0, answerDelay := 0,
            cardGap := 0, fontSize := 52, backgroundColor := "b", questionColor := "q",
            answerColor := "a", textColor := "w", force := false, skipTTS := true }
          [⟨"hello", "world"⟩]) = 2 := by decide
    rw [hc] at h
    exact h
  · have h := (skipTTS_gate (fun _ => true)
      { tempDir := "/t", voice := "m", codeVoice := "c", questionDelay := 0, answerDelay := 0,
        cardGap := 0, fontSize := 52, backgroundColor := "b", questionColor := "q",
        answerColor := "a", textColor := "w", force := false, skipTTS := true }
      (Pipeline.audioPlansOf id id id
        { tempDir := "/t", voice := "m", codeVoice := "c", questionDelay := 0, answerDelay := 0,
          cardGap := 0, fontSize := 52, backgroundColor := "b", questionColor := "q",
          answerColor := "a", textColor := "w", force := false, skipTTS := true }
        [⟨"hello", "world"⟩]) rfl).2 (by decide)
    have hempty : (Pipeline.audioPlansOf id id id
        { tempDir := "/t", voice := "m", codeVoice := "c", questionDelay := 0, answerDelay := 0,
          cardGap := 0, fontSize := 52, backgroundColor := "b", questionColor := "q",
          answerColor := "a", textColor := "w", force := false, skipTTS := true }
        [⟨"hello", "world"⟩]).filter (fun p =>
          p.isMultiPart && !isCached (fun _ => true) p.finalAudioPath false) = [] := by
      rfl
    rw [hempty] at h
    exact h

/-- C8 counterexample: a CLI override equal to the built-in default is
indistinguishable from an absent option, so a provided YAML value
overrides it, contradicting the claim that a CLI-supplied value is never
overwritten by the file value.  Built-in default questionDelay is 2. -/
theorem config_merge_counterexample :
    resolveDelay 2 (some 2) (some 5) = 5 ∧ (5 : ℚ) ≠ 2 ∧
    resolveVoice "af_heart" (some "af_heart") (some "bm_lewis") = "bm_lewis" ∧
    "bm_lewis" ≠ "af_heart" := by
  refine ⟨by decide, by decide, by decide, by decide⟩

/-- C8 (amended): a CLI value differing from the built-in default always
wins; when the CLI value is absent or equals the default, a provided YAML
value wins (for voices, a non-empty one — JS truthiness makes an empty
YAML voice count as absent); otherwise the built-in default stands. -/
theorem config_merge_spec :
    (∀ (dflt : ℚ) (cli yamlVal : Option ℚ),
      (∀ v, cli = some v → v ≠ dflt → resolveDelay dflt cli yamlVal = v) ∧
      ((cli = none ∨ cli = some dflt) →
        (∀ y, yamlVal = some y → resolveDelay dflt cli yamlVal = y) ∧
        (yamlVal = none → resolveDelay dflt cli yamlVal = dflt))) ∧
    (∀ (dflt : String) (cli yamlVal : Option String),
      (∀ v, cli = some v → v ≠ dflt → resolveVoice dflt cli yamlVal = v) ∧
      ((cli = none ∨ cli = some dflt) →
        (∀ y, yamlVal = some y → y ≠ "" → resolveVoice dflt cli yamlVal = y) ∧
        ((yamlVal = none ∨ yamlVal = some "") → resolveVoice dflt cli yamlVal = dflt))) := by
  constructor
  · intro dflt cli yamlVal
    constructor
    · rintro v rfl hne
      cases yamlVal with
      | none => rfl
      | some y =>
        show (if v = dflt then y else v) = v
        rw [if_neg hne]
    · intro hcli
      have hbase : cli.getD dflt = dflt := by
        rcases hcli with rfl | rfl <;> rfl
      constructor
      · rintro y rfl
        show mergeDelay (cli.getD dflt) dflt (some y) = y
        rw [mergeDelay, hbase, if_pos rfl]
      · rintro rfl
        show mergeDelay (cli.getD dflt) dflt none = dflt
        rw [mergeDelay, hbase]
  · intro dflt cli yamlVal
    constructor
    · rintro v rfl hne
      cases yamlVal with
      | none => rfl
      | some y =>
        show (if y ≠ "" ∧ v = dflt then y else v) = v
        rw [if_neg (by rintro ⟨_, h⟩; exact hne h)]
    · intro hcli
      have hbase : cli.getD dflt = dflt := by
        rcases hcli with rfl | rfl <;> rfl
      constructor
      · rintro y rfl hy
        show mergeVoice (cli.getD dflt) dflt (some y) = y
        rw [mergeVoice, hbase, if_pos ⟨hy, rfl⟩]
      · rintro (rfl | rfl)
        · show mergeVoice (cli.getD dflt) dflt none = dflt
          rw [mergeVoice, hbase]
        · show mergeVoice (cli.getD dflt) dflt (some "") = dflt
          rw [mergeVoice, hbase, if_neg (by rintro ⟨h, _⟩; exact h rfl)]

/-- C8 witness: a non-default CLI delay beats the YAML value; with no CLI
override the YAML value is adopted; with neither, the default stands. -/
theorem config_merge_spec_witness :
    resolveDelay 2 (some 7) (some 5) = 7 ∧
    resolveDelay 2 none (some 5) = 5 ∧
    resolveVoice "af_heart" none none = "af_heart" := by
  refine ⟨(config_merge_spec.1 2 (some 7) (some 5)).1 7 rfl (by decide),
    ((config_merge_spec.1 2 none (some 5)).2 (Or.inl rfl)).1 5 rfl,
    ((config_merge_spec.2 "af_heart" none none).2 (Or.inl rfl)).2 (Or.inl rfl)⟩

/-- C2: every audio plan the program constructs (tts-preprocess
`buildAudioPlan` and the pipeline question and answer plans) satisfies:
a single-part plan has exactly one part and its final path is that part's
own path; a multi-part plan's final path is keyed on the ordered
concatenation of the hashes of each part's (text, voice) pair; and any
change of that hash sequence — editing one part's text or voice,
reordering, adding or removing parts — changes the key string. -/
theorem audioPlan_invariants
    (sha slug preprocessForTTS : String → String) (cfg : PipelineConfig)
    (text tempDir pre voice codeVoice : String) (i : Nat) (card : Card)
    (hlen : ∀ s, (sha s).length = 8) :
    (let pl := buildAudioPlan sha preprocessForTTS text tempDir pre voice codeVoice
     (pl.isMultiPart = false → ∃ pt, pl.parts = [pt] ∧ pl.finalAudioPath = pt.audioPath) ∧
     (pl.isMultiPart = true →
       pl.finalAudioPath = cachedPath sha tempDir pre (mdAudioKeyOf sha pl.parts) "wav")) ∧
    (let pl := Pipeline.qPlanOf sha slug preprocessForTTS cfg i card
     pl.isMultiPart = false ∧ ∃ pt, pl.parts = [pt] ∧ pl.finalAudioPath = pt.audioPath) ∧
    (let pl := Pipeline.aPlanOf sha slug preprocessForTTS cfg i card
     (pl.isMultiPart = false → ∃ pt, pl.parts = [pt] ∧ pl.finalAudioPath = pt.audioPath) ∧
     (pl.isMultiPart = true →
       pl.finalAudioPath = cachedPath sha cfg.tempDir
         ("a_" ++ Nat.repr i ++ "_" ++ slug card.question) (mdAudioKeyOf sha pl.parts) "wav")) ∧
    (∀ parts1 parts2 : List AudioPartPlan,
      (parts1.map fun p => sha (p.ttsText ++ ":" ++ p.voice)) ≠
        (parts2.map fun p => sha (p.ttsText ++ ":" ++ p.voice)) →
      mdAudioKeyOf sha parts1 ≠ mdAudioKeyOf sha parts2) := by
  refine ⟨?_, ?_, ?_, ?_⟩
  · rw [buildAudioPlan]
    split
    · exact ⟨fun _ => ⟨_, rfl, rfl⟩, fun h => by simp at h⟩
    · exact ⟨fun h => by simp at h, fun _ => rfl⟩
  · exact ⟨rfl, _, rfl, rfl⟩
  · rw [Pipeline.aPlanOf]
    split
    · exact ⟨fun _ => ⟨_, rfl, rfl⟩, fun h => by simp at h⟩
    · exact ⟨fun h => by simp at h, fun _ => rfl⟩
  · intro parts1 parts2 hne heq
    apply hne
    apply joinSep_inj8
    · intro s hs
      obtain ⟨p, _, hp⟩ := List.mem_map.mp hs
      rw [← hp]
      exact hlen _
    · intro s hs
      obtain ⟨p, _, hp⟩ := List.mem_map.mp hs
      rw [← hp]
      exact hlen _
    · exact str_append_cancel_left (a := "md-audio:") heq

/-- C2 witness: a concrete multi-part plan with exact final key, and two
hash sequences differing in one part give distinct keys. -/
theorem audioPlan_invariants_witness :
    (Pipeline.qPlanOf (fun _ => "hhhhhhhh") id id
      { tempDir := "/t", voice := "m", codeVoice := "c", questionDelay := 0, answerDelay := 0,
        cardGap := 0, fontSize := 52, backgroundColor := "b", questionColor := "q",
        answerColor := "a", textColor := "w", force := false, skipTTS := false }
      0 ⟨"hi", "yo"⟩).isMultiPart = false ∧
    mdAudioKeyOf (fun s => if s = "a:v" then "00000000" else "11111111") [⟨"p1", "a", "v"⟩] ≠
      mdAudioKeyOf (fun s => if s = "a:v" then "00000000" else "11111111") [⟨"p1", "b", "v"⟩] := by
  have hlen : ∀ s, ((fun s => if s = "a:v" then "00000000" else "11111111") s).length = 8 := by
    intro s
    show (if s = "a:v" then "00000000" else "11111111").length = 8
    by_cases h : s = "a:v"
    · rw [if_pos h]
      decide
    · rw [if_neg h]
      decide
  refine ⟨(audioPlan_invariants (fun _ => "hhhhhhhh") id id
      { tempDir := "/t", voice := "m", codeVoice := "c", questionDelay := 0, answerDelay := 0,
        cardGap := 0, fontSize := 52, backgroundColor := "b", questionColor := "q",
        answerColor := "a", textColor := "w", force := false, skipTTS := false }
      "x" "/t" "p" "m" "c" 0 ⟨"hi", "yo"⟩ (fun _ => rfl)).2.1.1, ?_⟩
  exact (audioPlan_invariants (fun s => if s = "a:v" then "00000000" else "11111111") id id
      { tempDir := "/t", voice := "m", codeVoice := "c", questionDelay := 0, answerDelay := 0,
        cardGap := 0, fontSize := 52, backgroundColor := "b", questionColor := "q",
        answerColor := "a", textColor := "w", force := false, skipTTS := false }
      "x" "/t" "p" "m" "c" 0 ⟨"hi", "yo"⟩ hlen).2.2.2 [⟨"p1", "a", "v"⟩] [⟨"p1", "b", "v"⟩]
    (by decide)

/-! ## Position characterisation of the pipeline lists -/

/-- The plan list is two plans per card: position `k` holds the question
plan of card `k / 2` when `k` is even and its answer plan when odd. -/
theorem planPair_flat_get? (sha slug preprocessForTTS : String → String)
    (cfg : PipelineConfig) :
    ∀ (cards : List Card) (s k : Nat),
    ((List.enumFrom s cards).flatMap fun ic =>
        Pipeline.planPair sha slug preprocessForTTS cfg ic.1 ic.2).get? k =
      (cards.get? (k / 2)).map fun c =>
        if k % 2 = 0 then Pipeline.qPlanOf sha slug preprocessForTTS cfg (s + k / 2) c
        else Pipeline.aPlanOf sha slug preprocessForTTS cfg (s + k / 2) c := by
  intro cards
  induction cards with
  | nil =>
    intro s k
    simp
  | cons c cs ih =>
    intro s k
    rw [List.enumFrom_cons, List.flatMap_cons]
    rcases k with _ | _ | k
    · simp [Pipeline.planPair]
    · simp [Pipeline.planPair]
    · have hL : ((Pipeline.planPair sha slug preprocessForTTS cfg s c ++
          (List.enumFrom (s + 1) cs).flatMap fun ic =>
            Pipeline.planPair sha slug preprocessForTTS cfg ic.1 ic.2)).get? (k + 2) =
          ((List.enumFrom (s + 1) cs).flatMap fun ic =>
            Pipeline.planPair sha slug preprocessForTTS cfg ic.1 ic.2).get? k := rfl
      rw [hL, ih (s + 1) k]
      have h2 : (k + 2) / 2 = k / 2 + 1 := by omega
      have h3 : (k + 2) % 2 = k % 2 := by omega
      rw [h2, h3]
      have h4 : (c :: cs).get? (k / 2 + 1) = cs.get? (k / 2) := rfl
      rw [h4]
      have h5 : s + (k / 2 + 1) = s + 1 + k / 2 := by omega
      rw [h5]

theorem audioPlansOf_get? (sha slug preprocessForTTS : String → String)
    (cfg : PipelineConfig) (cards : List Card) (k : Nat) :
    (Pipeline.audioPlansOf sha slug preprocessForTTS cfg cards).get? k =
      (cards.get? (k / 2)).map fun c =>
        if k % 2 = 0 then Pipeline.qPlanOf sha slug preprocessForTTS cfg (k / 2) c
        else Pipeline.aPlanOf sha slug preprocessForTTS cfg (k / 2) c := by
  have h := planPair_flat_get? sha slug preprocessForTTS cfg cards 0 k
  simpa [Pipeline.audioPlansOf, List.enum] using h

theorem segmentsOf_get? (sha slug preprocessForTTS : String → String) (dur : String → ℚ)
    (cfg : PipelineConfig) (cards : List Card) (k : Nat) :
    (Pipeline.segmentsOf sha slug preprocessForTTS dur cfg cards).get? k =
      ((Pipeline.audioPlansOf sha slug preprocessForTTS cfg cards).get? k).map
        (Pipeline.segOfPlan slug dur cards) := by
  simp only [Pipeline.segmentsOf]
  exact List.get?_map _ _ _

theorem segmentsWithImages_get? (sha slug preprocessForTTS : String → String)
    (dur : String → ℚ) (cfg : PipelineConfig) (cards : List Card) (k : Nat) :
    (Pipeline.segmentsWithImages sha slug preprocessForTTS dur cfg cards).get? k =
      ((Pipeline.segmentsOf sha slug preprocessForTTS dur cfg cards).get? k).map
        (Pipeline.withImagePath sha cfg k) := by
  simp only [Pipeline.segmentsWithImages, List.enum]
  rw [List.get?_map, List.get?_enumFrom]
  cases (Pipeline.segmentsOf sha slug preprocessForTTS dur cfg cards).get? k with
  | none => rfl
  | some s => simp

theorem clipGroupsOf_get? (sha slug preprocessForTTS : String → String)
    (dur : String → ℚ) (cfg : PipelineConfig) (cards : List Card) (k : Nat) :
    (Pipeline.clipGroupsOf sha slug preprocessForTTS dur cfg cards).get? k =
      ((Pipeline.segmentsWithImages sha slug preprocessForTTS dur cfg cards).get? k).map
        (Pipeline.clipsForSeg sha cfg cards.length k) := by
  simp only [Pipeline.clipGroupsOf, List.enum]
  rw [List.get?_map, List.get?_enumFrom]
  cases (Pipeline.segmentsWithImages sha slug preprocessForTTS dur cfg cards).get? k with
  | none => rfl
  | some s => simp

/-- At an even position the plan is the question plan of card `k / 2`. -/
theorem audioPlansOf_get?_even (sha slug preprocessForTTS : String → String)
    (cfg : PipelineConfig) (cards : List Card) (k : Nat) (hk : k % 2 = 0) :
    (Pipeline.audioPlansOf sha slug preprocessForTTS cfg cards).get? k =
      (cards.get? (k / 2)).map (Pipeline.qPlanOf sha slug preprocessForTTS cfg (k / 2)) := by
  rw [audioPlansOf_get?]
  cases cards.get? (k / 2) with
  | none => rfl
  | some c => exact congrArg some (if_pos hk)

/-- At an odd position the plan is the answer plan of card `k / 2`. -/
theorem audioPlansOf_get?_odd (sha slug preprocessForTTS : String → String)
    (cfg : PipelineConfig) (cards : List Card) (k : Nat) (hk : k % 2 = 1) :
    (Pipeline.audioPlansOf sha slug preprocessForTTS cfg cards).get? k =
      (cards.get? (k / 2)).map (Pipeline.aPlanOf sha slug preprocessForTTS cfg (k / 2)) := by
  rw [audioPlansOf_get?]
  cases cards.get? (k / 2) with
  | none => rfl
  | some c => exact congrArg some (if_neg (by omega))

/-- The stable header fields of the answer plan, independent of which
branch (single-part or multi-part) built it. -/
theorem aPlanOf_base_fields (sha slug preprocessForTTS : String → String)
    (cfg : PipelineConfig) (i : Nat) (card : Card) :
    (Pipeline.aPlanOf sha slug preprocessForTTS cfg i card).isQuestion = false ∧
    (Pipeline.aPlanOf sha slug preprocessForTTS cfg i card).cardIndex = i := by
  rw [Pipeline.aPlanOf]
  split
  · exact ⟨rfl, rfl⟩
  · exact ⟨rfl, rfl⟩

/-- The question plan reads only the question side of a card. -/
theorem qPlanOf_question_only (sha slug preprocessForTTS : String → String)
    (cfg : PipelineConfig) (i : Nat) (q x y : String) :
    Pipeline.qPlanOf sha slug preprocessForTTS cfg i ⟨q, x⟩ =
      Pipeline.qPlanOf sha slug preprocessForTTS cfg i ⟨q, y⟩ := rfl

/-- `segOfPlan` reads the card list only through its length and the
question text at the plan's card index. -/
theorem segOfPlan_cards_congr (slug : String → String) (dur : String → ℚ)
    (cards1 cards2 : List Card) (plan : Pipeline.AudioPlan)
    (hlen : cards1.length = cards2.length)
    (hq : (cards1.getD plan.cardIndex ⟨"", ""⟩).question =
      (cards2.getD plan.cardIndex ⟨"", ""⟩).question) :
    Pipeline.segOfPlan slug dur cards1 plan = Pipeline.segOfPlan slug dur cards2 plan := by
  simp only [Pipeline.segOfPlan, hlen, hq]

/-- The gap clip part of a segment's descriptors depends only on the
segment's type, card index, total count and question slug. -/
theorem clipsForSeg_drop_one (sha : String → String) (cfg : PipelineConfig)
    (n p : Nat) (s t : Segment)
    (h1 : s.type = t.type) (h2 : s.cardIndex = t.cardIndex)
    (h3 : s.totalCards = t.totalCards) (h4 : s.questionSlug = t.questionSlug) :
    (Pipeline.clipsForSeg sha cfg n p s).drop 1 =
      (Pipeline.clipsForSeg sha cfg n p t).drop 1 := by
  simp only [Pipeline.clipsForSeg, h1, h2, h3, h4]
  rfl

/-- C3: two runs identical except for card `i`'s answer text agree on the
audio plan (hence every part path and final audio path), the segment with
its slide path, and the full clip descriptor group of every slot other
than card `i`'s answer; the gap slide path agrees; and at card `i`'s
answer slot the gap clip tail agrees, so only that card's answer audio,
slide and clip paths can differ. -/
theorem answer_edit_noninterference
    (sha slug preprocessForTTS : String → String) (dur : String → ℚ)
    (cfg : PipelineConfig) (cards cards2 : List Card) (i : Nat) (newAnswer : String)
    (hi : i < cards.length)
    (h2 : cards2 = cards.set i ⟨(cards.getD i ⟨"", ""⟩).question, newAnswer⟩) :
    (∀ k, k ≠ 2 * i + 1 →
      (Pipeline.audioPlansOf sha slug preprocessForTTS cfg cards2).get? k =
      (Pipeline.audioPlansOf sha slug preprocessForTTS cfg cards).get? k) ∧
    (∀ p, p ≠ 2 * i + 1 →
      (Pipeline.segmentsWithImages sha slug preprocessForTTS dur cfg cards2).get? p =
      (Pipeline.segmentsWithImages sha slug preprocessForTTS dur cfg cards).get? p) ∧
    Pipeline.gapSlidePath sha cfg cards2.length = Pipeline.gapSlidePath sha cfg cards.length ∧
    (∀ p, p ≠ 2 * i + 1 →
      (Pipeline.clipGroupsOf sha slug preprocessForTTS dur cfg cards2).get? p =
      (Pipeline.clipGroupsOf sha slug preprocessForTTS dur cfg cards).get? p) ∧
    ((Pipeline.clipGroupsOf sha slug preprocessForTTS dur cfg cards2).get? (2 * i + 1)).map
        (List.drop 1) =
      ((Pipeline.clipGroupsOf sha slug preprocessForTTS dur cfg cards).get? (2 * i + 1)).map
        (List.drop 1) := by
  have hlen : cards2.length = cards.length := by
    rw [h2, List.length_set]
  have hcard0 : cards.get? i = some (cards.getD i ⟨"", ""⟩) := by
    rw [List.getD_eq_getD_get?]
    cases hg : cards.get? i with
    | none =>
      exfalso
      rw [List.get?_eq_none] at hg
      omega
    | some c => rfl
  have hget2 : cards2.get? i = some ⟨(cards.getD i ⟨"", ""⟩).question, newAnswer⟩ := by
    rw [h2]
    exact List.get?_set_eq_of_lt _ hi
  have hgetne : ∀ j, j ≠ i → cards2.get? j = cards.get? j := by
    intro j hj
    rw [h2]
    exact List.get?_set_ne _ _ (Ne.symm hj)
  have hgetD : ∀ j, (cards2.getD j ⟨"", ""⟩).question = (cards.getD j ⟨"", ""⟩).question := by
    intro j
    by_cases hj : j = i
    · subst hj
      rw [List.getD_eq_getD_get?, List.getD_eq_getD_get?, hget2, hcard0]
      rfl
    · rw [List.getD_eq_getD_get?, List.getD_eq_getD_get?, hgetne j hj]
  have hplans : ∀ k, k ≠ 2 * i + 1 →
      (Pipeline.audioPlansOf sha slug preprocessForTTS cfg cards2).get? k =
      (Pipeline.audioPlansOf sha slug preprocessForTTS cfg cards).get? k := by
    intro k hk
    by_cases hki : k / 2 = i
    · have hk0 : k % 2 = 0 := by omega
      rw [audioPlansOf_get?_even sha slug preprocessForTTS cfg cards2 k hk0,
        audioPlansOf_get?_even sha slug preprocessForTTS cfg cards k hk0,
        hki, hget2, hcard0]
      exact congrArg some (qPlanOf_question_only sha slug preprocessForTTS cfg i _ _ _)
    · rw [audioPlansOf_get?, audioPlansOf_get?, hgetne (k / 2) hki]
  have hsegs : ∀ p, p ≠ 2 * i + 1 →
      (Pipeline.segmentsWithImages sha slug preprocessForTTS dur cfg cards2).get? p =
      (Pipeline.segmentsWithImages sha slug preprocessForTTS dur cfg cards).get? p := by
    intro p hp
    rw [segmentsWithImages_get?, segmentsWithImages_get?,
      segmentsOf_get?, segmentsOf_get?, hplans p hp]
    cases hpl : (Pipeline.audioPlansOf sha slug preprocessForTTS cfg cards).get? p with
    | none => rfl
    | some plan =>
      show some (Pipeline.withImagePath sha cfg p (Pipeline.segOfPlan slug dur cards2 plan)) =
        some (Pipeline.withImagePath sha cfg p (Pipeline.segOfPlan slug dur cards plan))
      rw [segOfPlan_cards_congr slug dur cards2 cards plan hlen (hgetD plan.cardIndex)]
  refine ⟨hplans, hsegs, by rw [hlen], ?_, ?_⟩
  · intro p hp
    rw [clipGroupsOf_get?, clipGroupsOf_get?, hsegs p hp, hlen]
  · rw [clipGroupsOf_get?, clipGroupsOf_get?, hlen]
    rw [segmentsWithImages_get?, segmentsWithImages_get?, segmentsOf_get?, segmentsOf_get?,
      audioPlansOf_get?_odd sha slug preprocessForTTS cfg cards2 _ (by omega),
      audioPlansOf_get?_odd sha slug preprocessForTTS cfg cards _ (by omega)]
    have hdiv : (2 * i + 1) / 2 = i := by omega
    rw [hdiv, hget2, hcard0]
    show some (List.drop 1 (Pipeline.clipsForSeg sha cfg cards.length (2 * i + 1)
        (Pipeline.withImagePath sha cfg (2 * i + 1) (Pipeline.segOfPlan slug dur cards2
          (Pipeline.aPlanOf sha slug preprocessForTTS cfg i
            ⟨(cards.getD i ⟨"", ""⟩).question, newAnswer⟩))))) =
      some (List.drop 1 (Pipeline.clipsForSeg sha cfg cards.length (2 * i + 1)
        (Pipeline.withImagePath sha cfg (2 * i + 1) (Pipeline.segOfPlan slug dur cards
          (Pipeline.aPlanOf sha slug preprocessForTTS cfg i (cards.getD i ⟨"", ""⟩))))))
    apply congrArg some
    apply clipsForSeg_drop_one
    · show (if (Pipeline.aPlanOf sha slug preprocessForTTS cfg i
          ⟨(cards.getD i ⟨"", ""⟩).question, newAnswer⟩).isQuestion then SegType.question
        else SegType.answer) =
        (if (Pipeline.aPlanOf sha slug preprocessForTTS cfg i
          (cards.getD i ⟨"", ""⟩)).isQuestion then SegType.question else SegType.answer)
      rw [(aPlanOf_base_fields sha slug preprocessForTTS cfg i _).1,
        (aPlanOf_base_fields sha slug preprocessForTTS cfg i _).1]
    · show (Pipeline.aPlanOf sha slug preprocessForTTS cfg i
          ⟨(cards.getD i ⟨"", ""⟩).question, newAnswer⟩).cardIndex =
        (Pipeline.aPlanOf sha slug preprocessForTTS cfg i (cards.getD i ⟨"", ""⟩)).cardIndex
      rw [(aPlanOf_base_fields sha slug preprocessForTTS cfg i _).2,
        (aPlanOf_base_fields sha slug preprocessForTTS cfg i _).2]
    · exact hlen
    · show slug ((cards2.getD (Pipeline.aPlanOf sha slug preprocessForTTS cfg i
          ⟨(cards.getD i ⟨"", ""⟩).question, newAnswer⟩).cardIndex ⟨"", ""⟩).question) =
        slug ((cards.getD (Pipeline.aPlanOf sha slug preprocessForTTS cfg i
          (cards.getD i ⟨"", ""⟩)).cardIndex ⟨"", ""⟩).question)
      rw [(aPlanOf_base_fields sha slug preprocessForTTS cfg i _).2,
        (aPlanOf_base_fields sha slug preprocessForTTS cfg i _).2, hgetD]

/-- Cache paths sharing the directory and the prefix head determine the
slug part of the prefix, because the hash component has fixed length 8
and the extension is fixed. -/
theorem cachedPath_slug_inj (sha : String → String) (hlen : ∀ x, (sha x).length = 8)
    (T A sl1 sl2 k1 k2 : String)
    (h : cachedPath sha T (A ++ sl1) k1 "wav" = cachedPath sha T (A ++ sl2) k2 "wav") :
    sl1 = sl2 := by
  have hd := congrArg String.data h
  simp only [cachedPath, str_append_data, List.append_assoc] at hd
  have hd2 := List.append_cancel_left (List.append_cancel_left (List.append_cancel_left hd))
  have e1 : (sha k1).data.length = 8 := by have := hlen k1; rwa [str_length_data] at this
  have e2 : (sha k2).data.length = 8 := by have := hlen k2; rwa [str_length_data] at this
  have u1 : ("_" : String).data.length = 1 := rfl
  have u2 : ("." : String).data.length = 1 := rfl
  have u3 : ("wav" : String).data.length = 3 := rfl
  refine str_data_inj (List.append_inj' hd2 ?_).1
  simp only [List.length_append, e1, e2, u1, u2, u3]

/-- Equal clip keys force equal audio path hashes and equal slide path
hashes, because both hash components have fixed length 8. -/
theorem clipKey_components (sha : String → String) (hlen : ∀ x, (sha x).length = 8)
    (t1 t2 : Segment) (h : Pipeline.clipKeyOf sha t1 = Pipeline.clipKeyOf sha t2) :
    sha t1.audioPath = sha t2.audioPath ∧ sha t1.imagePath = sha t2.imagePath := by
  have hd := congrArg String.data h
  simp only [Pipeline.clipKeyOf, str_append_data, List.append_assoc] at hd
  have hd2 := List.append_cancel_left hd
  have ea1 : (sha t1.audioPath).data.length = 8 := by
    have := hlen t1.audioPath; rwa [str_length_data] at this
  have ea2 : (sha t2.audioPath).data.length = 8 := by
    have := hlen t2.audioPath; rwa [str_length_data] at this
  have h1 := List.append_inj hd2 (by rw [ea1, ea2])
  have hd3 := List.append_cancel_left h1.2
  have ei1 : (sha t1.imagePath).data.length = 8 := by
    have := hlen t1.imagePath; rwa [str_length_data] at this
  have ei2 : (sha t2.imagePath).data.length = 8 := by
    have := hlen t2.imagePath; rwa [str_length_data] at this
  have h2 := List.append_inj hd3 (by rw [ei1, ei2])
  exact ⟨str_data_inj h1.1, str_data_inj h2.1⟩

/-- The final path of the answer plan always sits under the
`a_<index>_<slug>` prefix, whichever branch built it. -/
theorem aPlanOf_final_shape (sha slug preprocessForTTS : String → String)
    (cfg : PipelineConfig) (i : Nat) (card : Card) :
    ∃ key, (Pipeline.aPlanOf sha slug preprocessForTTS cfg i card).finalAudioPath =
      cachedPath sha cfg.tempDir ("a_" ++ Nat.repr i ++ "_" ++ slug card.question) key "wav" := by
  rw [Pipeline.aPlanOf]
  split
  · exact ⟨_, rfl⟩
  · exact ⟨_, rfl⟩

/-- Shape of the segment at position `p`: its role is fixed by the parity
of `p` and its audio path sits under the role prefix with the card index
and the segment's own question slug. -/
theorem segmentsWithImages_shape (sha slug preprocessForTTS : String → String)
    (dur : String → ℚ) (cfg : PipelineConfig) (cards : List Card) (p : Nat) (s : Segment)
    (h : (Pipeline.segmentsWithImages sha slug preprocessForTTS dur cfg cards).get? p = some s) :
    s.type = (if p % 2 = 0 then SegType.question else SegType.answer) ∧
    ∃ key, s.audioPath = cachedPath sha cfg.tempDir
      ((if p % 2 = 0 then "q_" else "a_") ++ Nat.repr (p / 2) ++ "_" ++ s.questionSlug)
      key "wav" := by
  by_cases hp : p % 2 = 0
  · rw [segmentsWithImages_get?, segmentsOf_get?,
      audioPlansOf_get?_even sha slug preprocessForTTS cfg cards p hp] at h
    cases hc : cards.get? (p / 2) with
    | none =>
      rw [hc] at h
      exact Option.noConfusion h
    | some card =>
      rw [hc] at h
      have hgd : cards.getD (p / 2) ⟨"", ""⟩ = card := by
        rw [List.getD_eq_getD_get?, hc]
        rfl
      have hs : Pipeline.withImagePath sha cfg p (Pipeline.segOfPlan slug dur cards
          (Pipeline.qPlanOf sha slug preprocessForTTS cfg (p / 2) card)) = s :=
        Option.some.inj h
      rw [← hs]
      refine ⟨by rw [if_pos hp]; rfl, audioCacheKey (preprocessForTTS card.question) cfg.voice, ?_⟩
      rw [if_pos hp]
      show cachedPath sha cfg.tempDir
          ("q_" ++ Nat.repr (p / 2) ++ "_" ++ slug card.question) _ "wav" =
        cachedPath sha cfg.tempDir
          ("q_" ++ Nat.repr (p / 2) ++ "_" ++ slug ((cards.getD (p / 2) ⟨"", ""⟩).question)) _ "wav"
      rw [hgd]
  · rw [segmentsWithImages_get?, segmentsOf_get?,
      audioPlansOf_get?_odd sha slug preprocessForTTS cfg cards p (by omega)] at h
    cases hc : cards.get? (p / 2) with
    | none =>
      rw [hc] at h
      exact Option.noConfusion h
    | some card =>
      rw [hc] at h
      have hgd : cards.getD (p / 2) ⟨"", ""⟩ = card := by
        rw [List.getD_eq_getD_get?, hc]
        rfl
      have hs : Pipeline.withImagePath sha cfg p (Pipeline.segOfPlan slug dur cards
          (Pipeline.aPlanOf sha slug preprocessForTTS cfg (p / 2) card)) = s :=
        Option.some.inj h
      rw [← hs]
      constructor
      · show (if (Pipeline.aPlanOf sha slug preprocessForTTS cfg (p / 2) card).isQuestion then
            SegType.question else SegType.answer) = _
        rw [(aPlanOf_base_fields sha slug preprocessForTTS cfg (p / 2) card).1, if_neg hp]
        rfl
      · obtain ⟨key, hk⟩ := aPlanOf_final_shape sha slug preprocessForTTS cfg (p / 2) card
        refine ⟨key, ?_⟩
        show (Pipeline.aPlanOf sha slug preprocessForTTS cfg (p / 2) card).finalAudioPath = _
        rw [hk, if_neg hp]
        show _ = cachedPath sha cfg.tempDir ("a_" ++ Nat.repr (p / 2) ++ "_" ++
          slug ((cards.getD (Pipeline.aPlanOf sha slug preprocessForTTS cfg
            (p / 2) card).cardIndex ⟨"", ""⟩).question)) key "wav"
        rw [(aPlanOf_base_fields sha slug preprocessForTTS cfg (p / 2) card).2, hgd]

/-- C1: the Stage 4 clip key of a segment is a function of exactly the
segment's audio path hash, slide path hash and total duration — raw card
text and every other field are immaterial; a change of the audio path
hash or the slide path hash changes the key; and two runs over the same
cache directory whose segment at a position agrees on
(audioPath, imagePath, totalDuration) compute equal clip paths at that
position. -/
theorem clip_key_transitivity
    (sha slug preprocessForTTS : String → String) (dur1 dur2 : String → ℚ)
    (cfg1 cfg2 : PipelineConfig) (cards1 cards2 : List Card) (p : Nat) (s1 s2 : Segment)
    (hlen : ∀ x, (sha x).length = 8)
    (htd : cfg1.tempDir = cfg2.tempDir)
    (h1 : (Pipeline.segmentsWithImages sha slug preprocessForTTS dur1 cfg1 cards1).get? p = some s1)
    (h2 : (Pipeline.segmentsWithImages sha slug preprocessForTTS dur2 cfg2 cards2).get? p = some s2) :
    (∀ t1 t2 : Segment, t1.audioPath = t2.audioPath → t1.imagePath = t2.imagePath →
      t1.totalDuration = t2.totalDuration →
      Pipeline.clipKeyOf sha t1 = Pipeline.clipKeyOf sha t2) ∧
    (∀ t1 t2 : Segment, sha t1.audioPath ≠ sha t2.audioPath →
      Pipeline.clipKeyOf sha t1 ≠ Pipeline.clipKeyOf sha t2) ∧
    (∀ t1 t2 : Segment, sha t1.imagePath ≠ sha t2.imagePath →
      Pipeline.clipKeyOf sha t1 ≠ Pipeline.clipKeyOf sha t2) ∧
    (s1.audioPath = s2.audioPath → s1.imagePath = s2.imagePath →
      s1.totalDuration = s2.totalDuration →
      Pipeline.segClipPath sha cfg1 p s1 = Pipeline.segClipPath sha cfg2 p s2) := by
  refine ⟨?_, ?_, ?_, ?_⟩
  · intro t1 t2 ha hi hd
    rw [Pipeline.clipKeyOf, Pipeline.clipKeyOf, ha, hi, hd]
  · intro t1 t2 hne heq
    exact hne (clipKey_components sha hlen t1 t2 heq).1
  · intro t1 t2 hne heq
    exact hne (clipKey_components sha hlen t1 t2 heq).2
  · intro ha hi hd
    obtain ⟨ht1, k1, hk1⟩ :=
      segmentsWithImages_shape sha slug preprocessForTTS dur1 cfg1 cards1 p s1 h1
    obtain ⟨ht2, k2, hk2⟩ :=
      segmentsWithImages_shape sha slug preprocessForTTS dur2 cfg2 cards2 p s2 h2
    rw [htd] at hk1
    have hsl : s1.questionSlug = s2.questionSlug :=
      cachedPath_slug_inj sha hlen cfg2.tempDir
        ((if p % 2 = 0 then "q_" else "a_") ++ Nat.repr (p / 2) ++ "_")
        s1.questionSlug s2.questionSlug k1 k2 (hk1.symm.trans (ha.trans hk2))
    have htt : s1.type = s2.type := ht1.trans ht2.symm
    have hk : Pipeline.clipKeyOf sha s1 = Pipeline.clipKeyOf sha s2 := by
      rw [Pipeline.clipKeyOf, Pipeline.clipKeyOf, ha, hi, hd]
    rw [Pipeline.segClipPath, Pipeline.segClipPath, htd, htt, hsl, hk]

/-- C3 witness: in a two-card run, editing card 0's answer leaves card 1's
question plan (position 2) untouched. -/
theorem answer_edit_noninterference_witness :
    (Pipeline.audioPlansOf id id id
      { tempDir := "/t", voice := "m", codeVoice := "c", questionDelay := 0, answerDelay := 0,
        cardGap := 1, fontSize := 52, backgroundColor := "b", questionColor := "q",
        answerColor := "a", textColor := "w", force := false, skipTTS := false }
      [⟨"q0", "zz"⟩, ⟨"q1", "a1"⟩]).get? 2 =
    (Pipeline.audioPlansOf id id id
      { tempDir := "/t", voice := "m", codeVoice := "c", questionDelay := 0, answerDelay := 0,
        cardGap := 1, fontSize := 52, backgroundColor := "b", questionColor := "q",
        answerColor := "a", textColor := "w", force := false, skipTTS := false }
      [⟨"q0", "a0"⟩, ⟨"q1", "a1"⟩]).get? 2 := by
  have h := answer_edit_noninterference id id id (fun _ => 0)
    { tempDir := "/t", voice := "m", codeVoice := "c", questionDelay := 0, answerDelay := 0,
      cardGap := 1, fontSize := 52, backgroundColor := "b", questionColor := "q",
      answerColor := "a", textColor := "w", force := false, skipTTS := false }
    [⟨"q0", "a0"⟩, ⟨"q1", "a1"⟩] [⟨"q0", "zz"⟩, ⟨"q1", "a1"⟩] 0 "zz" (by decide) (by rfl)
  exact h.1 2 (by decide)

/-- C1 witness: distinct audio path hashes give distinct clip keys, with
the run hypotheses discharged on a concrete one-card run. -/
theorem clip_key_transitivity_witness :
    Pipeline.clipKeyOf (fun s => if s = "A" then "00000000" else "11111111")
        ⟨SegType.question, "", 0, 1, "", "A", "", 0, 0⟩ ≠
      Pipeline.clipKeyOf (fun s => if s = "A" then "00000000" else "11111111")
        ⟨SegType.question, "", 0, 1, "", "B", "", 0, 0⟩ := by
  have hlen : ∀ x, ((fun s => if s = "A" then "00000000" else "11111111") x).length = 8 := by
    intro x
    show (if x = "A" then "00000000" else "11111111").length = 8
    by_cases h : x = "A"
    · rw [if_pos h]
      decide
    · rw [if_neg h]
      decide
  have h1 : (Pipeline.segmentsWithImages (fun s => if s = "A" then "00000000" else "11111111")
      id id (fun _ => 0)
      { tempDir := "/t", voice := "m", codeVoice := "c", questionDelay := 0, answerDelay := 0,
        cardGap := 1, fontSize := 52, backgroundColor := "b", questionColor := "q",
        answerColor := "a", textColor := "w", force := false, skipTTS := false }
      [⟨"q", "a"⟩]).get? 0 =
      some ⟨SegType.question, "q", 0, 1, "q", "/t/q_0_q_11111111.wav",
        "/t/slide_0_q_q_11111111.png", 0, 0 + 0⟩ := rfl
  exact (clip_key_transitivity (fun s => if s = "A" then "00000000" else "11111111")
      id id (fun _ => 0) (fun _ => 0)
      { tempDir := "/t", voice := "m", codeVoice := "c", questionDelay := 0, answerDelay := 0,
        cardGap := 1, fontSize := 52, backgroundColor := "b", questionColor := "q",
        answerColor := "a", textColor := "w", force := false, skipTTS := false }
      { tempDir := "/t", voice := "m", codeVoice := "c", questionDelay := 0, answerDelay := 0,
        cardGap := 1, fontSize := 52, backgroundColor := "b", questionColor := "q",
        answerColor := "a", textColor := "w", force := false, skipTTS := false }
      [⟨"q", "a"⟩] [⟨"q", "a"⟩] 0 _ _ hlen rfl h1 h1).2.1
    ⟨SegType.question, "", 0, 1, "", "A", "", 0, 0⟩
    ⟨SegType.question, "", 0, 1, "", "B", "", 0, 0⟩ (by decide)

/-! ## TTS pool scheduling -/

/-- `find(s => !s.busy)` returns an idle worker. -/
theorem findIdle_spec : ∀ (ws : List (Option Nat)) (w : Nat),
    findIdle ws = some w → ws.get? w = some none := by
  intro ws
  induction ws with
  | nil => intro w h; exact Option.noConfusion h
  | cons o rest ih =>
    intro w h
    cases o with
    | none =>
      rw [findIdle] at h
      injection h with h
      rw [← h]
      rfl
    | some t =>
      rw [findIdle] at h
      cases hr : findIdle rest with
      | none => rw [hr] at h; exact Option.noConfusion h
      | some w2 =>
        rw [hr] at h
        injection h with h
        rw [← h]
        exact ih w2 hr

/-- A task held by some worker occurs among the busy tasks. -/
theorem get?_mem_filterMap : ∀ (ws : List (Option Nat)) (w t : Nat),
    ws.get? w = some (some t) → t ∈ ws.filterMap id := by
  intro ws
  induction ws with
  | nil => intro w t h; exact Option.noConfusion h
  | cons o rest ih =>
    intro w t h
    cases w with
    | zero =>
      injection h with h
      rw [h]
      simp
    | succ w =>
      have := ih w t h
      cases o with
      | none => simpa using this
      | some x => simp [this]

/-- Clearing a busy worker removes one occurrence of its task from the
busy multiset. -/
theorem filterMap_set_none : ∀ (ws : List (Option Nat)) (w t : Nat),
    ws.get? w = some (some t) →
    List.Perm ((ws.set w none).filterMap id) ((ws.filterMap id).erase t) := by
  intro ws
  induction ws with
  | nil => intro w t h; exact Option.noConfusion h
  | cons o rest ih =>
    intro w t h
    cases w with
    | zero =>
      injection h with h
      rw [h]
      simp
    | succ w =>
      have hrec := ih w t h
      cases o with
      | none => simpa using hrec
      | some x =>
        by_cases hx : x = t
        · subst hx
          have hmem : x ∈ rest.filterMap id := get?_mem_filterMap rest w x h
          show List.Perm (x :: (rest.set w none).filterMap id) ((x :: rest.filterMap id).erase x)
          rw [List.erase_cons_head]
          exact (hrec.cons x).trans (List.perm_cons_erase hmem).symm
        · show List.Perm (x :: (rest.set w none).filterMap id) ((x :: rest.filterMap id).erase t)
          rw [List.erase_cons_tail (by simp [hx])]
          exact hrec.cons x

/-- Marking an idle worker busy adds its task to the busy multiset. -/
theorem filterMap_set_some : ∀ (ws : List (Option Nat)) (w t : Nat),
    ws.get? w = some none →
    List.Perm ((ws.set w (some t)).filterMap id) (t :: ws.filterMap id) := by
  intro ws
  induction ws with
  | nil => intro w t h; exact Option.noConfusion h
  | cons o rest ih =>
    intro w t h
    cases w with
    | zero =>
      injection h with h
      rw [h]
      simp
    | succ w =>
      have hrec := ih w t h
      cases o with
      | none => simpa using hrec
      | some x =>
        show List.Perm (x :: (rest.set w (some t)).filterMap id) (t :: x :: rest.filterMap id)
        exact (hrec.cons x).trans (List.Perm.swap t x _)

/-- The dispatch loop preserves the pending/busy correspondence and the
worker count, whatever is queued. -/
theorem dispatchLoop_inv : ∀ (q : List Nat) (ws : List (Option Nat)) (pend : List Nat),
    List.Perm pend (ws.filterMap id) →
    List.Perm (dispatchLoop ws q pend).2.2 ((dispatchLoop ws q pend).1.filterMap id) ∧
      (dispatchLoop ws q pend).1.length = ws.length := by
  intro q
  induction q with
  | nil => intro ws pend h; exact ⟨h, rfl⟩
  | cons t qs ih =>
    intro ws pend h
    rw [dispatchLoop]
    cases hf : findIdle ws with
    | none => exact ⟨h, rfl⟩
    | some w =>
      have hidle := findIdle_spec ws w hf
      have hstep : List.Perm (pend ++ [t]) ((ws.set w (some t)).filterMap id) :=
        (List.perm_append_singleton t pend).trans
          ((h.cons t).trans (filterMap_set_some ws w t hidle).symm)
      have := ih (ws.set w (some t)) (pend ++ [t]) hstep
      exact ⟨this.1, this.2.trans (List.length_set ws w (some t))⟩

/-- Every pool event preserves the invariant. -/
theorem applyPoolEv_inv (k : Nat) (s : PoolState) (ev : PoolEv) (h : PoolInv k s) :
    PoolInv k (applyPoolEv s ev) := by
  obtain ⟨hperm, hk⟩ := h
  cases ev with
  | submit =>
    have := dispatchLoop_inv (s.queue ++ [s.nextId]) s.workers s.pending hperm
    exact ⟨this.1, this.2.trans hk⟩
  | complete w =>
    rw [applyPoolEv, poolComplete]
    cases hw : s.workers.get? w with
    | none => exact ⟨hperm, hk⟩
    | some o =>
      cases o with
      | none => exact ⟨hperm, hk⟩
      | some t =>
        have herase : List.Perm (s.pending.erase t) ((s.workers.set w none).filterMap id) :=
          (hperm.erase t).trans (filterMap_set_none s.workers w t hw).symm
        have := dispatchLoop_inv s.queue (s.workers.set w none) (s.pending.erase t) herase
        exact ⟨this.1, this.2.trans ((List.length_set s.workers w none).trans hk)⟩

/-- Folding events preserves the invariant. -/
theorem foldl_pool_inv (k : Nat) : ∀ (evs : List PoolEv) (s : PoolState), PoolInv k s →
    PoolInv k (evs.foldl applyPoolEv s) := by
  intro evs
  induction evs with
  | nil => intro s h; exact h
  | cons e es ih =>
    intro s h
    exact ih _ (applyPoolEv_inv k s e h)

/-- The invariant holds along every event interleaving. -/
theorem runPool_inv (k : Nat) (evs : List PoolEv) : PoolInv k (runPool k evs) := by
  rw [runPool]
  refine foldl_pool_inv k evs (initPool k) ⟨?_, ?_⟩
  · show List.Perm ([] : List Nat) ((List.replicate k none).filterMap id)
    have hrep : (List.replicate k (none : Option Nat)).filterMap id = [] := by
      induction k with
      | zero => rfl
      | succ m ih => simp [List.replicate_succ, ih]
    rw [hrep]
  · exact List.length_replicate k none

/-- C5: in a pool of `k` workers, along every interleaving of synthesize
calls and worker completion or error messages, at most `k` jobs are in
the dispatched-but-unresolved (pending) state; a job is only ever
dispatched to a worker whose busy flag is off; and the worker set never
grows. -/
theorem tts_pool_bound (k : Nat) (evs : List PoolEv) :
    (runPool k evs).pending.length ≤ k ∧
    (∀ ws w, findIdle ws = some w → ws.get? w = some none) ∧
    (runPool k evs).workers.length = k := by
  obtain ⟨hperm, hk⟩ := runPool_inv k evs
  refine ⟨?_, findIdle_spec, hk⟩
  calc (runPool k evs).pending.length
      = ((runPool k evs).workers.filterMap id).length := hperm.length_eq
    _ ≤ (runPool k evs).workers.length := List.length_filterMap_le id _
    _ = k := hk

/-! ## Bounded concurrency runner -/

/-- Every scheduler step preserves the runner invariant. -/
theorem rcStep_inv {α : Type} (n limit : Nat) (task : Nat → α) (s : RCState α) (w : Nat)
    (h : RCInv n limit task s) : RCInv n limit task (rcStep n task s w) := by
  obtain ⟨hres, hnext, hwk, hgrab, hrun, hdone⟩ := h
  cases hw : s.workers.get? w with
  | none =>
    have hstep : rcStep n task s w = s := by
      rw [rcStep, hw]
    rw [hstep]
    exact ⟨hres, hnext, hwk, hgrab, hrun, hdone⟩
  | some st =>
    have hwlt : w < s.workers.length := by
      by_contra hge
      rw [List.get?_eq_none.mpr (by omega)] at hw
      exact Option.noConfusion hw
    cases st with
    | idle =>
      by_cases hn : s.next < n
      · have hstep : rcStep n task s w =
            { s with next := s.next + 1, workers := s.workers.set w (.running s.next) } := by
          rw [rcStep, hw]
          exact if_pos hn
        rw [hstep]
        refine ⟨hres, by show s.next + 1 ≤ n; omega,
          (List.length_set s.workers w _).trans hwk, ?_, ?_, ?_⟩
        · intro j hj
          replace hj : j < s.next + 1 := hj
          by_cases hji : j = s.next
          · subst hji
            exact Or.inr ⟨w, List.get?_set_eq_of_lt _ hwlt⟩
          · have hj2 : j < s.next := by omega
            rcases hgrab j hj2 with h1 | ⟨w2, hw2⟩
            · exact Or.inl h1
            · refine Or.inr ⟨w2, ?_⟩
              have hww : w2 ≠ w := by
                intro he
                subst he
                have := hw.symm.trans hw2
                injection this with hh
                exact WStatus.noConfusion hh
              show (s.workers.set w _).get? w2 = _
              rw [List.get?_set_ne _ _ (Ne.symm hww)]
              exact hw2
        · intro w2 i hw2
          replace hw2 : (s.workers.set w (.running s.next)).get? w2 = some (.running i) := hw2
          show i < s.next + 1
          by_cases hww : w2 = w
          · subst hww
            rw [List.get?_set_eq_of_lt _ hwlt] at hw2
            injection hw2 with hh
            injection hh with hh2
            omega
          · rw [List.get?_set_ne _ _ (Ne.symm hww)] at hw2
            have := hrun w2 i hw2
            omega
        · rintro ⟨st, hmem, hst⟩
          show n ≤ s.next + 1
          rcases List.mem_or_eq_of_mem_set hmem with hm | he
          · have := hdone ⟨st, hm, hst⟩
            omega
          · rw [he] at hst
            exact WStatus.noConfusion hst
      · have hstep : rcStep n task s w = { s with workers := s.workers.set w .done } := by
          rw [rcStep, hw]
          exact if_neg hn
        rw [hstep]
        refine ⟨hres, hnext, (List.length_set s.workers w _).trans hwk, ?_, ?_,
          fun _ => by show n ≤ s.next; omega⟩
        · intro j hj
          rcases hgrab j hj with h1 | ⟨w2, hw2⟩
          · exact Or.inl h1
          · refine Or.inr ⟨w2, ?_⟩
            have hww : w2 ≠ w := by
              intro he
              subst he
              have := hw.symm.trans hw2
              injection this with hh
              exact WStatus.noConfusion hh
            show (s.workers.set w _).get? w2 = _
            rw [List.get?_set_ne _ _ (Ne.symm hww)]
            exact hw2
        · intro w2 i hw2
          replace hw2 : (s.workers.set w .done).get? w2 = some (.running i) := hw2
          by_cases hww : w2 = w
          · subst hww
            rw [List.get?_set_eq_of_lt _ hwlt] at hw2
            injection hw2 with hh
            exact WStatus.noConfusion hh
          · rw [List.get?_set_ne _ _ (Ne.symm hww)] at hw2
            exact hrun w2 i hw2
    | running i =>
      have hi : i < s.next := hrun w i hw
      have hstep : rcStep n task s w =
          ⟨s.next, s.results.set i (some (task i)), s.workers.set w WStatus.idle⟩ := by
        rw [rcStep, hw]
      rw [hstep]
      refine ⟨(List.length_set s.results i _).trans hres, hnext,
        (List.length_set s.workers w _).trans hwk, ?_, ?_, ?_⟩
      · intro j hj
        replace hj : j < s.next := hj
        by_cases hji : j = i
        · subst hji
          refine Or.inl ?_
          show (s.results.set j (some (task j))).get? j = _
          exact List.get?_set_eq_of_lt _ (by omega)
        · rcases hgrab j hj with h1 | ⟨w2, hw2⟩
          · refine Or.inl ?_
            show (s.results.set i (some (task i))).get? j = _
            rw [List.get?_set_ne _ _ (Ne.symm hji)]
            exact h1
          · have hww : w2 ≠ w := by
              intro he
              subst he
              have := hw.symm.trans hw2
              injection this with hh
              injection hh with hh2
              exact hji hh2.symm
            refine Or.inr ⟨w2, ?_⟩
            show (s.workers.set w _).get? w2 = _
            rw [List.get?_set_ne _ _ (Ne.symm hww)]
            exact hw2
      · intro w2 i2 hw2
        replace hw2 : (s.workers.set w .idle).get? w2 = some (.running i2) := hw2
        by_cases hww : w2 = w
        · subst hww
          rw [List.get?_set_eq_of_lt _ hwlt] at hw2
          injection hw2 with hh
          exact WStatus.noConfusion hh
        · rw [List.get?_set_ne _ _ (Ne.symm hww)] at hw2
          exact hrun w2 i2 hw2
      · rintro ⟨st, hmem, hst⟩
        rcases List.mem_or_eq_of_mem_set hmem with hm | he
        · exact hdone ⟨st, hm, hst⟩
        · rw [he] at hst
          exact WStatus.noConfusion hst
    | done =>
      have hstep : rcStep n task s w = s := by
        rw [rcStep, hw]
      rw [hstep]
      exact ⟨hres, hnext, hwk, hgrab, hrun, hdone⟩

/-- Folding a schedule preserves the runner invariant. -/
theorem foldl_rc_inv {α : Type} (n limit : Nat) (task : Nat → α) :
    ∀ (sched : List Nat) (s : RCState α), RCInv n limit task s →
    RCInv n limit task (sched.foldl (rcStep n task) s) := by
  intro sched
  induction sched with
  | nil => intro s h; exact h
  | cons w ws ih =>
    intro s h
    exact ih _ (rcStep_inv n limit task s w h)

/-- The initial runner state satisfies the invariant. -/
theorem rcInit_inv {α : Type} (n limit : Nat) (task : Nat → α) :
    RCInv n limit task (rcInit α n limit) := by
  refine ⟨List.length_replicate n none, Nat.zero_le n,
    List.length_replicate _ _, ?_, ?_, ?_⟩
  · intro j hj
    replace hj : j < 0 := hj
    omega
  · intro w i hw
    have := List.eq_of_mem_replicate (List.get?_mem hw)
    exact WStatus.noConfusion this
  · rintro ⟨st, hmem, hst⟩
    rw [List.eq_of_mem_replicate hmem] at hst
    exact WStatus.noConfusion hst

/-- C4: under every schedule that runs all workers to completion, the
bounded runner's results array equals the sequential, index-ordered
result list — completion order is immaterial; and the path list handed to
`concatenateClips` is exactly the descriptor-construction order. -/
theorem runConcurrent_ordered :
    (∀ (α : Type) (n : Nat) (task : Nat → α) (limit : Nat) (sched : List Nat),
      1 ≤ limit →
      (∀ st ∈ (rcRun n task limit sched).workers, st = WStatus.done) →
      (rcRun n task limit sched).results = (List.range n).map fun i => some (task i)) ∧
    (∀ (sha slug preprocessForTTS : String → String) (dur : String → ℚ)
      (cfg : PipelineConfig) (cards : List Card),
      Pipeline.clipPathsOf sha slug preprocessForTTS dur cfg cards =
        (Pipeline.clipDescsOf sha slug preprocessForTTS dur cfg cards).map
          Pipeline.ClipDesc.path) := by
  constructor
  · intro α n task limit sched hlim hdone
    have hinv := foldl_rc_inv n limit task sched (rcInit α n limit) (rcInit_inv n limit task)
    rw [← rcRun] at hinv
    obtain ⟨hres, hnext, hwk, hgrab, hrun, hdone5⟩ := hinv
    rcases Nat.eq_zero_or_pos n with rfl | hn
    · rw [List.length_eq_zero.mp hres]
      rfl
    · have hpos : 0 < (rcRun n task limit sched).workers.length := by
        rw [hwk]
        omega
      obtain ⟨st, hst⟩ : ∃ st, (rcRun n task limit sched).workers.get? 0 = some st :=
        ⟨_, List.get?_eq_get hpos⟩
      have hnn : n ≤ (rcRun n task limit sched).next :=
        hdone5 ⟨st, List.get?_mem hst, hdone st (List.get?_mem hst)⟩
      apply List.ext_get?
      intro m
      by_cases hm : m < n
      · rcases hgrab m (by omega) with h1 | ⟨w2, hw2⟩
        · rw [h1, List.get?_map, List.get?_range hm]
          rfl
        · exfalso
          have := hdone _ (List.get?_mem hw2)
          exact WStatus.noConfusion this
      · rw [List.get?_eq_none.mpr (by omega)]
        rw [List.get?_eq_none.mpr (by simp; omega)]
  · intro sha slug preprocessForTTS dur cfg cards
    rfl

/-- C4 witness: two tasks on two workers under a schedule that completes
them out of order still delivers the results in index order. -/
theorem runConcurrent_ordered_witness :
    (rcRun 2 (fun i => i + 10) 2 [0, 1, 1, 0, 0, 1]).results =
      (List.range 2).map fun i => some (i + 10) :=
  runConcurrent_ordered.1 Nat 2 (fun i => i + 10) 2 [0, 1, 1, 0, 0, 1]
    (by decide) (by decide)

end QaVideo
